import Mathlib

/-
  Verification of qax/utils.py: lazy-tree reconciliation over ImplicitArray
  (virtual-node) pytrees.

  Shallow embedding notes.
  A leaf of a virtual-as-leaf flattening is either a concrete array leaf or an
  ImplicitArray.  Both kinds report an aval (shape, dtype) via core.get_aval:
  for an ImplicitArray this is its declared metadata.  An ImplicitArray,
  flattened one layer (flatten_one_implicit_layer), yields its ordered child
  nodes together with a PyTreeDef of the one-layer-peeled tree; two such
  PyTreeDefs are equal iff the container topology (class, aux data, arity)
  agrees, and a PyTreeDef determines the number of leaves.  We model a
  PyTreeDef of a one-layer expansion as either the trivial leaf structure
  (what tree_structure returns for a concrete leaf) or a node structure
  carrying an opaque tag (class + aux data fingerprint) and the arity.
  The materialization capability (_materialize, called in a loop until a
  concrete leaf appears) is modelled by a mat field holding the next step
  of the chain.
-/

namespace Qax

/-- Shape/dtype metadata of a leaf, as compared by the source via
aval.shape == shape and aval.dtype == dtype.  The dtype is an opaque
comparable tag. -/
structure Aval where
  shape : List Nat
  dtype : Nat
deriving DecidableEq, Repr

/-- A structure descriptor returned by flatten_one_implicit_layer: the
trivial single-leaf PyTreeDef (for a concrete leaf input), or the PyTreeDef
of an ImplicitArray peeled one layer, identified by an opaque tag (the
ImplicitArray class and static aux data) plus its arity. -/
inductive Struct where
  | leafStruct : Struct
  | nodeStruct (tag : Nat) (arity : Nat) : Struct
deriving DecidableEq, Repr

/-- A node of the virtual-as-leaf flattening: a concrete array leaf carrying
its aval, or an ImplicitArray carrying its declared aval, its one-layer
expansion (tag and ordered children) and its materialization step (mat). -/
inductive Node : Type where
  | concrete : Aval → Node
  | implicit : Aval → Nat → List Node → Node → Node

/-- Paths are sequences of integers: the first component indexes the
top-level virtual-as-leaf flattening, later components index positions in
successive one-layer expansions. -/
abbrev Path := List Nat

/-- A work-set entry of the core loop: (path_prefix, one node per tree). -/
abbrev Entry := Path × List Node

/-- core.get_aval on a leaf: the concrete aval, or the declared aval of an
ImplicitArray. -/
def Node.get_aval : Node → Aval
  | .concrete a => a
  | .implicit a _ _ _ => a

/-- isinstance(x, implicit_array.ImplicitArray). -/
def Node.isImplicit : Node → Bool
  | .concrete _ => false
  | .implicit _ _ _ _ => true

/-- Whether a node is a concrete leaf. -/
def Node.isConcrete : Node → Bool
  | .concrete _ => true
  | .implicit _ _ _ _ => false

/-- flatten_one_implicit_layer (utils.py lines 51-67).  On an ImplicitArray
it returns the node's ordered children and the one-layer PyTreeDef; on a
concrete leaf the prototype is the leaf itself, so the result is the
singleton leaf list with the trivial leaf structure (the source raises
nothing on this input). -/
def flatten_one_implicit_layer : Node → List Node × Struct
  | .concrete a => ([.concrete a], .leafStruct)
  | .implicit _ tg cs _ => (cs, .nodeStruct tg cs.length)

/-- Indexing used to transpose leaf lists, with a junk default that is never
reached in range (mirrors Python tuple indexing inside zip). -/
def getIdx (i : Nat) (l : List Node) : Node :=
  (l.get? i).getD (Node.concrete ⟨[], 0⟩)

/-- Length of Python zip(*lss): the minimum of the list lengths (zip() of
no arguments is empty). -/
def minArity : List (List Node) → Nat
  | [] => 0
  | [l] => l.length
  | l :: ls => min l.length (minArity ls)

/-- zip(*lss) over node lists: the list of positionwise groups. -/
def zipGroups (lss : List (List Node)) : List (List Node) :=
  (List.range (minArity lss)).map fun i => lss.map (getIdx i)

/-- len(set(all_structures)) <= 1, i.e. all structure descriptors equal. -/
def structsAllEq : List Struct → Bool
  | [] => true
  | s :: rest => rest.all fun t => t == s

/-- The inner aval comparison of the core loop (lines 180-190): within one
positionwise group, some element disagrees with the first element on shape
or dtype. -/
def avalDiffGroup : List Node → Bool
  | [] => false
  | x :: rest => rest.any fun n => !(n.get_aval == x.get_aval)

/- Weight of a node used as a termination measure: children count double
so that expanding one layer across a work set strictly shrinks the total
weight.  The mat chain is deliberately not counted: the reconciliation
traversal never follows it. -/
mutual
def nodeW : Node → Nat
  | .concrete _ => 1
  | .implicit _ _ cs _ => 1 + 2 * listW cs
def listW : List Node → Nat
  | [] => 0
  | c :: rest => nodeW c + listW rest
end

/-- Weight of a work-set entry. -/
def entryW (e : Entry) : Nat := 1 + listW e.2

/-- Total weight of a work set. -/
def stackW (es : List Entry) : Nat := (es.map entryW).sum

/-- A tree flattened virtual-as-leaf: an opaque container-topology tag plus
the ordered leaf list, as produced by tree_flatten_with_implicit. -/
structure Tree where
  tag : Nat
  leaves : List Node

/-- The identity of a tree's top-level PyTreeDef: the topology tag together
with the leaf count (equal PyTreeDefs have equal numbers of leaves). -/
def treeStructId (t : Tree) : Nat × Nat := (t.tag, t.leaves.length)

/-- Fault values raised by the module, mirroring the payload of each
ValueError message. structureMismatch is the fixed message of line 142,
which interpolates nothing; avalMismatch is the message of lines 147-149,
which interpolates the expected aval, the actual aval and the tree index;
axisOutOfBounds is the message of line 19, which interpolates the axis and
the dimension count. -/
inductive Fault where
  | structureMismatch : Fault
  | avalMismatch (expected actual : Aval) (treeIdx : Nat) : Fault
  | axisOutOfBounds (axis : Int) (ndim : Nat) : Fault
deriving DecidableEq, Repr

/-- The leafwise aval precondition check of lines 144-149 for one tree at
index i, mirroring zip truncation and first-fault raising. -/
def checkLeafAvals (i : Nat) : List Node → List Aval → Except Fault Unit
  | _, [] => .ok ()
  | [], _ => .ok ()
  | leaf :: ls, ea :: es =>
    if leaf.get_aval = ea then checkLeafAvals i ls es
    else .error (.avalMismatch ea leaf.get_aval i)

/-- The precondition loop of lines 140-149 over trees 1..N-1: structure
equality with tree 0, then leafwise aval agreement, raising at the first
violation. -/
def checkRest (avals0 : List Aval) (s0 : Nat × Nat) : Nat → List Tree → Except Fault Unit
  | _, [] => .ok ()
  | i, t :: ts =>
    if treeStructId t ≠ s0 then .error .structureMismatch
    else match checkLeafAvals i t.leaves avals0 with
      | .error e => .error e
      | .ok _ => checkRest avals0 s0 (i + 1) ts

/-- The whole precondition phase of get_common_prefix_transforms. -/
def checkTrees : List Tree → Except Fault Unit
  | [] => .ok ()
  | t0 :: rest => checkRest (t0.leaves.map Node.get_aval) (treeStructId t0) 1 rest

/-- Index of the first tree whose top-level structure disagrees with tree 0,
i.e. the loop index at which line 142 raises. -/
def firstStructMismatchFrom (s0 : Nat × Nat) : Nat → List Tree → Option Nat
  | _, [] => none
  | i, t :: ts =>
    if treeStructId t ≠ s0 then some i else firstStructMismatchFrom s0 (i + 1) ts

/-- Index of the first disagreeing tree in the structure precondition. -/
def firstStructureMismatchIndex : List Tree → Option Nat
  | [] => none
  | t0 :: rest => firstStructMismatchFrom (treeStructId t0) 1 rest

/-- The while-loop of lines 112-114: repeatedly call _materialize until the
node is no longer an ImplicitArray. -/
def materializeLoop : Node → Node
  | .concrete a => .concrete a
  | .implicit _ _ _ m => materializeLoop m

/- The recursive leaf visitor _map_leaves_with_implicit_path (lines
87-103), split into the per-leaf body and the enumerated list walk.  A leaf
that is not an ImplicitArray, or at which is_leaf fires, is passed to f;
otherwise the leaf is expanded one layer, mapped recursively under the
extended path and reassembled with tree_unflatten of the one-layer
structure, which rebuilds the ImplicitArray (same class and aux data)
around the mapped children. -/
mutual
def mapOneLeaf (f : Path → Node → Node) (stop : Path → Node → Bool)
    (path : Path) (leaf : Node) : Node :=
  if !leaf.isImplicit || stop path leaf then f path leaf
  else match leaf with
    | .concrete a => f path (.concrete a)
    | .implicit a tg cs m => .implicit a tg (mapLeavesIdx f stop path 0 cs) m
def mapLeavesIdx (f : Path → Node → Node) (stop : Path → Node → Bool)
    (pfx : Path) (i : Nat) : List Node → List Node
  | [] => []
  | c :: rest =>
    mapOneLeaf f stop (pfx ++ [i]) c :: mapLeavesIdx f stop pfx (i + 1) rest
end

/-- _map_leaves_with_implicit_path with its default empty path prefix made
explicit. -/
def _map_leaves_with_implicit_path (f : Path → Node → Node) (leaves : List Node)
    (stop : Path → Node → Bool) (pfx : Path) : List Node :=
  mapLeavesIdx f stop pfx 0 leaves

/-- _get_pruning_transform (lines 105-121): the identity for an empty path
set, otherwise the transform that flattens virtual-as-leaf, maps with
is_leaf = membership in materialization_paths and f = the materialization
while-loop, and reassembles with the original top structure. -/
def _get_pruning_transform (tree : Tree) (mpaths : Finset Path) : Tree → Tree :=
  if mpaths = ∅ then fun x => x
  else fun x =>
    ⟨x.tag, _map_leaves_with_implicit_path (fun _ n => materializeLoop n) x.leaves
      (fun p _ => decide (p ∈ mpaths)) []⟩

/-- Boolean prefix order on paths. -/
def pathLE : Path → Path → Bool
  | [], _ => true
  | _ :: _, [] => false
  | a :: p, b :: q => a == b && pathLE p q

/-- No path of the set is a proper prefix of another. -/
def prefixFree (s : Finset Path) : Prop :=
  ∀ p ∈ s, ∀ q ∈ s, p ≠ q → pathLE p q = false

/-- Address a node below a given node by repeated one-layer expansion. -/
def getAtNode : Node → Path → Option Node
  | n, [] => some n
  | .concrete _, _ :: _ => none
  | .implicit _ _ cs _, i :: r =>
    match cs.get? i with
    | some c => getAtNode c r
    | none => none

/-- Address a leaf position of a tree: the path head indexes the top-level
virtual-as-leaf flattening, the rest descends one-layer expansions. -/
def Tree.getAt (t : Tree) : Path → Option Node
  | [] => none
  | i :: r =>
    match t.leaves.get? i with
    | some c => getAtNode c r
    | none => none

/-- Replace the node at a path below a node, leaving everything else
unchanged. -/
def replaceAtNode : Node → Path → Node → Option Node
  | _, [], v => some v
  | .concrete _, _ :: _, _ => none
  | .implicit a tg cs m, i :: r, v =>
    match cs.get? i with
    | some c =>
      match replaceAtNode c r v with
      | some c2 => some (.implicit a tg (cs.set i c2) m)
      | none => none
    | none => none

/-- Replace the node at a path of a tree. -/
def Tree.replaceAt (t : Tree) : Path → Node → Option Tree
  | [], _ => none
  | i :: r, v =>
    match t.leaves.get? i with
    | some c =>
      match replaceAtNode c r v with
      | some c2 => some ⟨t.tag, t.leaves.set i c2⟩
      | none => none
    | none => none

/- Erase every materialization chain in a node, keeping the declared
avals and the expansion topology.  Used to state that reconciliation never
consults _materialize. -/
mutual
def eraseMat : Node → Node
  | .concrete a => .concrete a
  | .implicit a tg cs _ => .implicit a tg (eraseMatList cs) (.concrete ⟨[], 0⟩)
def eraseMatList : List Node → List Node
  | [] => []
  | c :: rest => eraseMat c :: eraseMatList rest
end

/-- Erase every materialization chain in a tree. -/
def Tree.eraseMat (t : Tree) : Tree := ⟨t.tag, t.leaves.map Qax.eraseMat⟩

/-- Turn positionwise groups into work-set entries with extended prefixes,
starting at a given position index. -/
def enumGroupsFrom (pfx : Path) : Nat → List (List Node) → List Entry
  | _, [] => []
  | i, g :: gs => (pfx ++ [i], g) :: enumGroupsFrom pfx (i + 1) gs

/-- The entries pushed for the groups of one expanded work-set entry
(enumerate at line 195). -/
def enumGroups (pfx : Path) (gs : List (List Node)) : List Entry :=
  enumGroupsFrom pfx 0 gs

/-- The initial work set of lines 158-163: one entry per top-level leaf
position, holding that position's leaf from every tree. -/
def initEntries (trees : List Tree) : List Entry :=
  enumGroups [] (zipGroups (trees.map Tree.leaves))

/-- One round of the implicit_depth loop (lines 73-79): the concatenated
one-layer expansions of the ImplicitArray leaves (concrete leaves are
dropped). -/
def nextLeaves (ls : List Node) : List Node :=
  (ls.map fun l => if l.isImplicit then (flatten_one_implicit_layer l).1 else []).flatten

/-- The vmap wrapping loop of vmap_all_but_one (lines 20-28), recorded as
the list of (in_axis, out_axis) arguments passed to jax.vmap, outermost
wrap first; the counter starts at i = ndim-1 and counts down. -/
def vmapLayerPlan (axis : Int) : Nat → Nat → Nat → List (Nat × Nat)
  | _, _, 0 => []
  | vd, od, k + 1 =>
    if (k : Int) = axis then vmapLayerPlan axis 0 0 k
    else (vd, od) :: vmapLayerPlan axis vd od k

/-- The control behaviour of the function returned by vmap_all_but_one
(lines 10-30) on arguments whose first element has ndim dimensions: raise
when axis >= ndim, otherwise wrap f in the recorded sequence of vmaps. -/
def vmap_all_but_one (axis : Int) (out_ndim : Nat) (ndim : Nat) :
    Except Fault (List (Nat × Nat)) :=
  if (ndim : Int) ≤ axis then .error (.axisOutOfBounds axis ndim)
  else .ok (vmapLayerPlan axis 1 out_ndim ndim)

/-- A sample aval used by concrete evaluation examples. -/
def wAval : Aval := ⟨[3], 1⟩

/-- A sample childless ImplicitArray with a given structure tag, whose one
materialization step yields a concrete leaf. -/
def wImp (tg : Nat) : Node := Node.implicit wAval tg [] (Node.concrete wAval)

/-- A sample ImplicitArray whose single child is a concrete leaf of shape
[k], for exercising the group aval comparison. -/
def wdiv (k : Nat) : Node :=
  Node.implicit wAval 0 [Node.concrete ⟨[k], 1⟩] (Node.concrete wAval)

/- Weight lemmas.  These are stated before the remaining definitions
because the termination measures of the work-set loop and of the recursive
path-set function depend on them. -/

theorem nodeW_pos (n : Node) : 1 ≤ nodeW n := by
  cases n <;> simp [nodeW]

theorem listW_cons (c : Node) (l : List Node) :
    listW (c :: l) = nodeW c + listW l := by
  simp [listW]

theorem listW_append (a b : List Node) : listW (a ++ b) = listW a + listW b := by
  induction a with
  | nil => simp [listW]
  | cons c l ih => simp [listW, ih]; omega

theorem listW_ge_length (l : List Node) : l.length ≤ listW l := by
  induction l with
  | nil => simp [listW]
  | cons c l ih =>
    have := nodeW_pos c
    simp [listW]
    omega

theorem nodeW_le_listW_of_mem {c : Node} {l : List Node} (h : c ∈ l) :
    nodeW c ≤ listW l := by
  induction l with
  | nil => cases h
  | cons d l ih =>
    rcases List.mem_cons.mp h with rfl | h2
    · simp [listW]
    · have := ih h2
      simp [listW]; omega

theorem getIdx_mem {i : Nat} {l : List Node} (h : i < l.length) : getIdx i l ∈ l := by
  unfold getIdx
  rw [List.get?_eq_get h]
  simpa using List.get_mem l i h

/-- If some node of a work-set entry is an ImplicitArray and all one-layer
structure descriptors agree, then every node is an ImplicitArray with the
same tag and the same arity (a concrete leaf would contribute the leaf
structure, which never equals a node structure). -/
theorem allImplicit {nodes : List Node}
    (hany : nodes.any Node.isImplicit = true)
    (hstr : structsAllEq (nodes.map fun n => (flatten_one_implicit_layer n).2) = true) :
    ∃ tg k, ∀ n ∈ nodes, ∃ a cs m, n = .implicit a tg cs m ∧ cs.length = k := by
  rcases List.any_eq_true.mp hany with ⟨n0, hn0, himp⟩
  cases nodes with
  | nil => cases hn0
  | cons h t =>
    simp only [List.map_cons, structsAllEq, List.all_eq_true] at hstr
    have hhead : ∃ a cs m, h = Node.implicit a cs.length.succ.pred cs m ∨ True := ⟨⟨[],0⟩, [], h, Or.inr trivial⟩
    -- First show the head is implicit.
    have hheadImp : h.isImplicit = true := by
      rcases List.mem_cons.mp hn0 with rfl | hmem
      · exact himp
      · -- some later node is implicit; its structure equals the head structure
        have := hstr _ (List.mem_map.mpr ⟨n0, hmem, rfl⟩)
        cases h with
        | concrete a =>
          cases n0 with
          | concrete b => cases himp
          | implicit b tg cs m => simp [flatten_one_implicit_layer, beq_iff_eq] at this
        | implicit a tg cs m => rfl
    cases h with
    | concrete a => cases hheadImp
    | implicit a tg cs m =>
      refine ⟨tg, cs.length, ?_⟩
      intro n hn
      rcases List.mem_cons.mp hn with rfl | hmem
      · exact ⟨a, cs, m, rfl, rfl⟩
      · have := hstr _ (List.mem_map.mpr ⟨n, hmem, rfl⟩)
        cases n with
        | concrete b => simp [flatten_one_implicit_layer, beq_iff_eq] at this
        | implicit b tg2 cs2 m2 =>
          simp [flatten_one_implicit_layer, beq_iff_eq] at this
          exact ⟨b, cs2, m2, by rw [this.1], this.2⟩

theorem minArity_const {lss : List (List Node)} {k : Nat}
    (hne : lss ≠ []) (hlen : ∀ l ∈ lss, l.length = k) : minArity lss = k := by
  induction lss with
  | nil => cases hne rfl
  | cons l ls ih =>
    cases ls with
    | nil => simpa [minArity] using hlen l (by simp)
    | cons l2 ls2 =>
      have h1 : l.length = k := hlen l (by simp)
      have h2 : minArity (l2 :: ls2) = k := by
        apply ih (by simp)
        intro x hx
        exact hlen x (List.mem_cons_of_mem _ hx)
      simp [minArity, h1, h2]

theorem sum_map_add {α : Type} (l : List α) (f g : α → Nat) :
    (l.map fun x => f x + g x).sum = (l.map f).sum + (l.map g).sum := by
  induction l with
  | nil => simp
  | cons c t ih => simp [ih]; omega

theorem rowSum (l : List Node) :
    ((List.range l.length).map fun i => nodeW (getIdx i l)).sum = listW l := by
  induction l with
  | nil => simp [listW]
  | cons c t ih =>
    rw [List.length_cons, List.range_succ_eq_map, List.map_cons, List.map_map,
      List.sum_cons]
    have h1 : getIdx 0 (c :: t) = c := by simp [getIdx]
    have h2 : ((List.range t.length).map ((fun i => nodeW (getIdx i (c :: t))) ∘ Nat.succ)).sum
        = ((List.range t.length).map fun i => nodeW (getIdx i t)).sum := by
      apply congrArg List.sum
      apply List.map_congr_left
      intro i _
      simp [Function.comp, getIdx]
    rw [h1, h2, ih, listW_cons]

theorem transposeSum {lss : List (List Node)} {k : Nat}
    (hlen : ∀ l ∈ lss, l.length = k) :
    ((List.range k).map fun i => listW (lss.map (getIdx i))).sum
      = (lss.map listW).sum := by
  induction lss with
  | nil => simp [listW]
  | cons l ls ih =>
    have hl : l.length = k := hlen l (by simp)
    have hls : ∀ x ∈ ls, x.length = k := fun x hx => hlen x (List.mem_cons_of_mem _ hx)
    have e1 : ((List.range k).map fun i => listW ((l :: ls).map (getIdx i))).sum
        = ((List.range k).map fun i => nodeW (getIdx i l) + listW (ls.map (getIdx i))).sum := by
      apply congrArg List.sum
      apply List.map_congr_left
      intro i _
      simp [listW]
    rw [e1, sum_map_add, ih hls]
    rw [show ((List.range k).map fun i => nodeW (getIdx i l)).sum = listW l by
      rw [show k = l.length from hl.symm, rowSum]]
    simp [listW]

theorem sum_map_one {α : Type} (l : List α) : (l.map fun _ => 1).sum = l.length := by
  induction l with
  | nil => simp
  | cons c t ih => simp [ih]; omega

theorem pointwise_le {ns : List Node} {f : Node → Node}
    (h : ∀ n ∈ ns, nodeW (f n) ≤ nodeW n) : listW (ns.map f) ≤ listW ns := by
  induction ns with
  | nil => simp
  | cons n rest ih =>
    have h1 := h n (by simp)
    have h2 := ih fun x hx => h x (List.mem_cons_of_mem _ hx)
    simp only [List.map_cons, listW_cons]
    omega

/-- The positionwise group taken at an in-range index is strictly lighter
than the work-set entry it came from (all nodes are implicit with the same
arity when the loop descends). -/
theorem groupW_lt {nodes : List Node} {i : Nat}
    (hany : nodes.any Node.isImplicit = true)
    (hstr : structsAllEq (nodes.map fun n => (flatten_one_implicit_layer n).2) = true)
    (hi : i < minArity (nodes.map fun n => (flatten_one_implicit_layer n).1)) :
    listW ((nodes.map fun n => (flatten_one_implicit_layer n).1).map (getIdx i))
      < listW nodes := by
  obtain ⟨tg, k, hall⟩ := allImplicit hany hstr
  have hne : nodes ≠ [] := by rintro rfl; simp at hany
  have hlen : ∀ l ∈ nodes.map (fun n => (flatten_one_implicit_layer n).1), l.length = k := by
    intro l hl
    obtain ⟨n, hn, rfl⟩ := List.mem_map.mp hl
    obtain ⟨a, cs, m, rfl, hcs⟩ := hall n hn
    simpa [flatten_one_implicit_layer] using hcs
  have hk : i < k := by
    rwa [minArity_const (by simpa using hne) hlen] at hi
  have key : (nodes.map fun n => (flatten_one_implicit_layer n).1).map (getIdx i)
      = nodes.map fun n => getIdx i (flatten_one_implicit_layer n).1 := by
    rw [List.map_map]; rfl
  rw [key]
  have hlt : ∀ n ∈ nodes, nodeW (getIdx i (flatten_one_implicit_layer n).1) < nodeW n := by
    intro n hn
    obtain ⟨a, cs, m, rfl, hcs⟩ := hall n hn
    have hmem : getIdx i cs ∈ cs := getIdx_mem (by omega)
    have := nodeW_le_listW_of_mem hmem
    simp only [flatten_one_implicit_layer, nodeW]
    omega
  cases nodes with
  | nil => cases hne rfl
  | cons n rest =>
    have h1 := hlt n (by simp)
    have h2 := pointwise_le (f := fun n => getIdx i (flatten_one_implicit_layer n).1)
      (fun x hx => Nat.le_of_lt (hlt x (List.mem_cons_of_mem _ hx)))
    simp only [List.map_cons, listW_cons, Function.comp] at *
    omega

theorem stackW_cons (e : Entry) (es : List Entry) :
    stackW (e :: es) = entryW e + stackW es := by
  simp [stackW]

theorem stackW_append (a b : List Entry) :
    stackW (a ++ b) = stackW a + stackW b := by
  simp [stackW]

theorem stackW_reverse (a : List Entry) : stackW a.reverse = stackW a := by
  simp [stackW, List.map_reverse, List.sum_reverse]

theorem stackW_rest_lt (pfx : Path) (nodes : List Node) (rest : List Entry) :
    stackW rest < stackW ((pfx, nodes) :: rest) := by
  rw [stackW_cons]
  have : 1 ≤ entryW (pfx, nodes) := by simp [entryW]
  omega

theorem stackW_enumGroupsFrom (pfx : Path) (j : Nat) (gs : List (List Node)) :
    stackW (enumGroupsFrom pfx j gs) = (gs.map fun g => 1 + listW g).sum := by
  induction gs generalizing j with
  | nil => simp [enumGroupsFrom, stackW]
  | cons g t ih => simp [enumGroupsFrom, stackW_cons, ih, entryW]

theorem listW_all_implicit {ns : List Node} {tg k : Nat}
    (hall : ∀ n ∈ ns, ∃ a cs m, n = .implicit a tg cs m ∧ cs.length = k) :
    listW ns = ns.length
      + 2 * ((ns.map fun n => listW (flatten_one_implicit_layer n).1).sum) := by
  induction ns with
  | nil => simp [listW]
  | cons n rest ih =>
    obtain ⟨a, cs, m, rfl, hcs⟩ := hall n (by simp)
    have := ih fun x hx => hall x (List.mem_cons_of_mem _ hx)
    simp only [List.map_cons, List.sum_cons, listW_cons, nodeW, List.length_cons,
      flatten_one_implicit_layer] at *
    omega

/-- The entries pushed when the loop expands one work-set entry weigh
strictly less than the entry itself. -/
theorem pushW_lt {nodes : List Node} (pfx : Path)
    (hany : nodes.any Node.isImplicit = true)
    (hstr : structsAllEq (nodes.map fun n => (flatten_one_implicit_layer n).2) = true) :
    stackW (enumGroups pfx (zipGroups (nodes.map fun n => (flatten_one_implicit_layer n).1)))
      < 1 + listW nodes := by
  obtain ⟨tg, k, hall⟩ := allImplicit hany hstr
  have hne : nodes ≠ [] := by rintro rfl; simp at hany
  have hlen : ∀ l ∈ nodes.map (fun n => (flatten_one_implicit_layer n).1), l.length = k := by
    intro l hl
    obtain ⟨n, hn, rfl⟩ := List.mem_map.mp hl
    obtain ⟨a, cs, m, rfl, hcs⟩ := hall n hn
    simpa [flatten_one_implicit_layer] using hcs
  have hmin : minArity (nodes.map fun n => (flatten_one_implicit_layer n).1) = k :=
    minArity_const (by simpa using hne) hlen
  rw [enumGroups, stackW_enumGroupsFrom, zipGroups, hmin, List.map_map]
  have e1 : ((List.range k).map ((fun g => 1 + listW g) ∘
      fun i => (nodes.map fun n => (flatten_one_implicit_layer n).1).map (getIdx i))).sum
      = ((List.range k).map fun i =>
          1 + listW ((nodes.map fun n => (flatten_one_implicit_layer n).1).map (getIdx i))).sum := by
    rfl
  rw [e1, sum_map_add, sum_map_one, List.length_range, transposeSum hlen, List.map_map]
  have e2 : ((fun g => listW g) ∘ fun n => (flatten_one_implicit_layer n).1) =
      fun n => listW (flatten_one_implicit_layer n).1 := rfl
  rw [e2]
  have hW := listW_all_implicit hall
  set S := (nodes.map fun n => listW (flatten_one_implicit_layer n).1).sum with hS
  -- now: k + S < 1 + listW nodes with listW nodes = N + 2 S
  rcases Nat.eq_zero_or_pos k with rfl | hkpos
  · have hN : 1 ≤ nodes.length := by
      cases nodes with
      | nil => cases hne rfl
      | cons a b => simp
    omega
  · -- k ≥ 1: the first node has k children each of weight ≥ 1, so k ≤ S
    have hkS : k ≤ S := by
      cases nodes with
      | nil => cases hne rfl
      | cons n rest =>
        obtain ⟨a, cs, m, rfl, hcs⟩ := hall n (by simp)
        have h1 : k ≤ listW cs := by
          have := listW_ge_length cs
          omega
        have h2 : listW (flatten_one_implicit_layer (Node.implicit a tg cs m)).1 = listW cs := by
          simp [flatten_one_implicit_layer]
        simp only [hS, List.map_cons, List.sum_cons, h2]
        omega
    have hN : 1 ≤ nodes.length := by
      cases nodes with
      | nil => cases hne rfl
      | cons a b => simp
    omega

theorem nextLeaves_le (ls : List Node) : listW (nextLeaves ls) ≤ listW ls := by
  induction ls with
  | nil => simp [nextLeaves, listW]
  | cons l rest ih =>
    have e : nextLeaves (l :: rest)
        = (if l.isImplicit then (flatten_one_implicit_layer l).1 else []) ++ nextLeaves rest := by
      simp [nextLeaves]
    rw [e, listW_append, listW_cons]
    cases l with
    | concrete a => simp [Node.isImplicit, listW, nodeW]; omega
    | implicit a tg cs m =>
      simp only [Node.isImplicit, if_pos, flatten_one_implicit_layer, nodeW]
      omega

theorem nextLeaves_lt {ls : List Node} (hany : ls.any Node.isImplicit = true) :
    listW (nextLeaves ls) < listW ls := by
  induction ls with
  | nil => simp at hany
  | cons l rest ih =>
    have e : nextLeaves (l :: rest)
        = (if l.isImplicit then (flatten_one_implicit_layer l).1 else []) ++ nextLeaves rest := by
      simp [nextLeaves]
    rw [e, listW_append, listW_cons]
    cases l with
    | concrete a =>
      have hrest : rest.any Node.isImplicit = true := by
        simpa [Node.isImplicit] using hany
      have := ih hrest
      simp [Node.isImplicit, listW, nodeW]
      omega
    | implicit a tg cs m =>
      have := nextLeaves_le rest
      simp only [Node.isImplicit, if_pos, flatten_one_implicit_layer, nodeW]
      omega

/- The remaining definitions: the core work-set loop and its variants.
Their termination measures rely on the weight lemmas above. -/

/-- The set of materialization paths contributed by one work-set entry and
all entries transitively enqueued beneath it, written as a recursive
function over the entry (the loop body of lines 166-196). -/
def entryPaths (pfx : Path) (nodes : List Node) : Finset Path :=
  if hany : nodes.any Node.isImplicit = true then
    if hstr : structsAllEq (nodes.map fun n => (flatten_one_implicit_layer n).2) = true then
      if (zipGroups (nodes.map fun n => (flatten_one_implicit_layer n).1)).any avalDiffGroup = true then
        {pfx}
      else
        ((List.range (minArity (nodes.map fun n => (flatten_one_implicit_layer n).1))).attach.map
          fun i => entryPaths (pfx ++ [i.1])
            ((nodes.map fun n => (flatten_one_implicit_layer n).1).map (getIdx i.1))).foldr
          (· ∪ ·) ∅
    else {pfx}
  else ∅
termination_by listW nodes
decreasing_by exact groupW_lt hany hstr (List.mem_range.mp i.2)

/-- The while-loop of lines 165-196, with the Python list-as-stack (append
then pop from the end) represented head-at-top: popping takes the head and
pushing prepends the reversed group entries, preserving the LIFO order of
the source. -/
def runStack : List Entry → Finset Path → Finset Path
  | [], acc => acc
  | (pfx, nodes) :: rest, acc =>
    if hany : nodes.any Node.isImplicit = true then
      if hstr : structsAllEq (nodes.map fun n => (flatten_one_implicit_layer n).2) = true then
        if (zipGroups (nodes.map fun n => (flatten_one_implicit_layer n).1)).any avalDiffGroup = true then
          runStack rest (insert pfx acc)
        else
          runStack
            ((enumGroups pfx (zipGroups (nodes.map fun n => (flatten_one_implicit_layer n).1))).reverse
              ++ rest) acc
      else runStack rest (insert pfx acc)
    else runStack rest acc
termination_by es _ => stackW es
decreasing_by
  · exact stackW_rest_lt pfx nodes rest
  · rw [stackW_append, stackW_reverse, stackW_cons]
    have := pushW_lt pfx hany hstr
    simp only [entryW]
    omega
  · exact stackW_rest_lt pfx nodes rest
  · exact stackW_rest_lt pfx nodes rest

/-- The same loop with the work set used as a FIFO queue: pop from the
front, append new entries at the back. -/
def runQueue : List Entry → Finset Path → Finset Path
  | [], acc => acc
  | (pfx, nodes) :: rest, acc =>
    if hany : nodes.any Node.isImplicit = true then
      if hstr : structsAllEq (nodes.map fun n => (flatten_one_implicit_layer n).2) = true then
        if (zipGroups (nodes.map fun n => (flatten_one_implicit_layer n).1)).any avalDiffGroup = true then
          runQueue rest (insert pfx acc)
        else
          runQueue
            (rest ++ enumGroups pfx (zipGroups (nodes.map fun n => (flatten_one_implicit_layer n).1)))
            acc
      else runQueue rest (insert pfx acc)
    else runQueue rest acc
termination_by es _ => stackW es
decreasing_by
  · exact stackW_rest_lt pfx nodes rest
  · rw [stackW_append, stackW_cons]
    have := pushW_lt pfx hany hstr
    simp only [entryW]
    omega
  · exact stackW_rest_lt pfx nodes rest
  · exact stackW_rest_lt pfx nodes rest

/-- The union of the path sets contributed by a list of work-set entries. -/
def pathsOf (es : List Entry) : Finset Path :=
  es.foldr (fun e acc => entryPaths e.1 e.2 ∪ acc) ∅

/-- implicit_depth (lines 69-85): rounds of one-layer expansion until no
ImplicitArray leaf remains. -/
def implicit_depth_leaves (ls : List Node) : Nat :=
  if h : ls.any Node.isImplicit = true then 1 + implicit_depth_leaves (nextLeaves ls)
  else 0
termination_by listW ls
decreasing_by exact nextLeaves_lt h

/-- implicit_depth of a tree: the loop applied to the virtual-as-leaf
flattening. -/
def implicit_depth (t : Tree) : Nat := implicit_depth_leaves t.leaves

/-- The materialization path set computed by get_common_prefix_transforms
(lines 128-196): empty for at most one tree, otherwise the precondition
checks followed by the work-set loop. -/
def get_common_prefix_paths (trees : List Tree) : Except Fault (Finset Path) :=
  if trees.length ≤ 1 then .ok ∅
  else match checkTrees trees with
    | .error e => .error e
    | .ok _ => .ok (runStack (initEntries trees).reverse ∅)

/-- The same computation with the work set processed first-in-first-out. -/
def get_common_prefix_paths_fifo (trees : List Tree) : Except Fault (Finset Path) :=
  if trees.length ≤ 1 then .ok ∅
  else match checkTrees trees with
    | .error e => .error e
    | .ok _ => .ok (runQueue (initEntries trees) ∅)

/-- get_common_prefix_transforms: identity transforms for at most one tree,
otherwise one pruning transform per tree built from the computed
materialization path set (lines 135-136 and 198). -/
def get_common_prefix_transforms (trees : List Tree) :
    Except Fault (List (Tree → Tree)) :=
  if trees.length ≤ 1 then .ok (trees.map fun _ => fun x => x)
  else match checkTrees trees with
    | .error e => .error e
    | .ok _ =>
      .ok (trees.map fun t => _get_pruning_transform t (runStack (initEntries trees).reverse ∅))

/- Prefix-order lemmas on paths. -/

theorem pathLE_refl (p : Path) : pathLE p p = true := by
  induction p with
  | nil => rfl
  | cons a p ih => simp [pathLE, ih]

theorem pathLE_append (p r : Path) : pathLE p (p ++ r) = true := by
  induction p with
  | nil => rfl
  | cons a p ih => simp [pathLE, ih]

theorem pathLE_trans {p q r : Path} (h1 : pathLE p q = true) (h2 : pathLE q r = true) :
    pathLE p r = true := by
  induction p generalizing q r with
  | nil => rfl
  | cons a p ih =>
    cases q with
    | nil => simp [pathLE] at h1
    | cons b q =>
      cases r with
      | nil => simp [pathLE] at h2
      | cons c r =>
        simp only [pathLE, Bool.and_eq_true, beq_iff_eq] at h1 h2 ⊢
        exact ⟨h1.1.trans h2.1, ih h1.2 h2.2⟩

theorem pathLE_length {p q : Path} (h : pathLE p q = true) : p.length ≤ q.length := by
  induction p generalizing q with
  | nil => simp
  | cons a p ih =>
    cases q with
    | nil => simp [pathLE] at h
    | cons b q =>
      simp only [pathLE, Bool.and_eq_true] at h
      simpa using ih h.2

theorem pathLE_same_length_eq {p q r : Path} (h1 : pathLE p r = true)
    (h2 : pathLE q r = true) (hl : p.length = q.length) : p = q := by
  induction p generalizing q r with
  | nil =>
    cases q with
    | nil => rfl
    | cons b q => simp at hl
  | cons a p ih =>
    cases q with
    | nil => simp at hl
    | cons b q =>
      cases r with
      | nil => simp [pathLE] at h1
      | cons c r =>
        simp only [pathLE, Bool.and_eq_true, beq_iff_eq] at h1 h2
        have := ih h1.2 h2.2 (by simpa using hl)
        rw [h1.1, h2.1, this]

theorem pathLE_antisymm {p q : Path} (h1 : pathLE p q = true) (h2 : pathLE q p = true) :
    p = q :=
  pathLE_same_length_eq h1 (pathLE_refl q)
    (Nat.le_antisymm (pathLE_length h1) (pathLE_length h2))

/- Unfolding equations for entryPaths, one per branch of the loop body. -/

theorem entryPaths_none {pfx : Path} {nodes : List Node}
    (h : nodes.any Node.isImplicit = false) : entryPaths pfx nodes = ∅ := by
  rw [entryPaths]
  simp [h]

theorem entryPaths_structDiff {pfx : Path} {nodes : List Node}
    (h1 : nodes.any Node.isImplicit = true)
    (h2 : structsAllEq (nodes.map fun n => (flatten_one_implicit_layer n).2) = false) :
    entryPaths pfx nodes = {pfx} := by
  rw [entryPaths]
  simp [h1, h2]

theorem entryPaths_avalDiff {pfx : Path} {nodes : List Node}
    (h1 : nodes.any Node.isImplicit = true)
    (h2 : structsAllEq (nodes.map fun n => (flatten_one_implicit_layer n).2) = true)
    (h3 : (zipGroups (nodes.map fun n => (flatten_one_implicit_layer n).1)).any avalDiffGroup = true) :
    entryPaths pfx nodes = {pfx} := by
  rw [entryPaths]
  simp [h1, h2, h3]

theorem entryPaths_push {pfx : Path} {nodes : List Node}
    (h1 : nodes.any Node.isImplicit = true)
    (h2 : structsAllEq (nodes.map fun n => (flatten_one_implicit_layer n).2) = true)
    (h3 : (zipGroups (nodes.map fun n => (flatten_one_implicit_layer n).1)).any avalDiffGroup = false) :
    entryPaths pfx nodes
      = ((List.range (minArity (nodes.map fun n => (flatten_one_implicit_layer n).1))).map
          fun i => entryPaths (pfx ++ [i])
            ((nodes.map fun n => (flatten_one_implicit_layer n).1).map (getIdx i))).foldr
        (· ∪ ·) ∅ := by
  rw [entryPaths]
  rw [dif_pos h1, dif_pos h2, if_neg (by rw [h3]; exact Bool.false_ne_true)]
  conv_rhs => rw [← List.attach_map_val]

/- pathsOf lemmas. -/

theorem pathsOf_nil : pathsOf [] = ∅ := rfl

theorem pathsOf_cons (e : Entry) (es : List Entry) :
    pathsOf (e :: es) = entryPaths e.1 e.2 ∪ pathsOf es := rfl

theorem mem_pathsOf {p : Path} {es : List Entry} :
    p ∈ pathsOf es ↔ ∃ e ∈ es, p ∈ entryPaths e.1 e.2 := by
  induction es with
  | nil => simp [pathsOf]
  | cons e rest ih =>
    rw [pathsOf_cons]
    simp [ih]

theorem pathsOf_append (a b : List Entry) :
    pathsOf (a ++ b) = pathsOf a ∪ pathsOf b := by
  induction a with
  | nil => simp [pathsOf]
  | cons e rest ih => simp [pathsOf_cons, ih, Finset.union_assoc]

theorem pathsOf_reverse (a : List Entry) : pathsOf a.reverse = pathsOf a := by
  ext x
  simp [mem_pathsOf]

theorem pathsOf_range_map (pfx : Path) (G : Nat → List Node) :
    ∀ n i, pathsOf (enumGroupsFrom pfx i ((List.range' i n).map G))
      = ((List.range' i n).map fun j => entryPaths (pfx ++ [j]) (G j)).foldr (· ∪ ·) ∅ := by
  intro n
  induction n with
  | zero => intro i; simp [List.range', enumGroupsFrom, pathsOf]
  | succ n ih =>
    intro i
    rw [List.range'_succ]
    simp only [List.map_cons, enumGroupsFrom, pathsOf_cons, List.foldr_cons]
    rw [ih (i + 1)]

/-- The contribution of the entries pushed for one expanded entry equals
the recursive path set of that entry. -/
theorem pathsOf_enumGroups {pfx : Path} {nodes : List Node}
    (h1 : nodes.any Node.isImplicit = true)
    (h2 : structsAllEq (nodes.map fun n => (flatten_one_implicit_layer n).2) = true)
    (h3 : (zipGroups (nodes.map fun n => (flatten_one_implicit_layer n).1)).any avalDiffGroup = false) :
    pathsOf (enumGroups pfx (zipGroups (nodes.map fun n => (flatten_one_implicit_layer n).1)))
      = entryPaths pfx nodes := by
  rw [entryPaths_push h1 h2 h3, enumGroups, zipGroups, List.range_eq_range']
  exact pathsOf_range_map pfx _ _ 0

theorem bool_false_of_not_true {b : Bool} (h : ¬ b = true) : b = false := by
  cases b
  · rfl
  · exact absurd rfl h

/- The loop-to-recursion correspondence: running the work-set loop from any
stack and accumulator yields the accumulator united with the per-entry
recursive path sets, in either processing discipline. -/

theorem runStack_eq_aux : ∀ (W : Nat) (es : List Entry) (acc : Finset Path),
    stackW es ≤ W → runStack es acc = acc ∪ pathsOf es := by
  intro W
  induction W with
  | zero =>
    intro es acc h
    cases es with
    | nil => simp [runStack, pathsOf]
    | cons e rest =>
      exfalso
      have hc := stackW_cons e rest
      have he : 1 ≤ entryW e := by simp [entryW]
      omega
  | succ W ih =>
    intro es acc h
    cases es with
    | nil => simp [runStack, pathsOf]
    | cons e rest =>
      obtain ⟨pfx, nodes⟩ := e
      have hc := stackW_cons (pfx, nodes) rest
      have he : 1 ≤ entryW (pfx, nodes) := by simp [entryW]
      have hrest : stackW rest ≤ W := by omega
      rw [runStack]
      by_cases h1 : nodes.any Node.isImplicit = true
      · rw [dif_pos h1]
        by_cases h2 : structsAllEq (nodes.map fun n => (flatten_one_implicit_layer n).2) = true
        · rw [dif_pos h2]
          by_cases h3 : (zipGroups (nodes.map fun n => (flatten_one_implicit_layer n).1)).any avalDiffGroup = true
          · rw [if_pos h3, ih rest (insert pfx acc) hrest, pathsOf_cons,
              entryPaths_avalDiff h1 h2 h3]
            ext x
            simp [Finset.mem_insert]
            tauto
          · have h3f := bool_false_of_not_true h3
            rw [if_neg h3]
            have hpush : stackW
                ((enumGroups pfx (zipGroups (nodes.map fun n => (flatten_one_implicit_layer n).1))).reverse
                  ++ rest) ≤ W := by
              rw [stackW_append, stackW_reverse]
              have hp := pushW_lt pfx h1 h2
              have he2 : entryW (pfx, nodes) = 1 + listW nodes := rfl
              omega
            rw [ih _ acc hpush, pathsOf_append, pathsOf_reverse,
              pathsOf_enumGroups h1 h2 h3f, pathsOf_cons]
        · have h2f := bool_false_of_not_true h2
          rw [dif_neg h2, ih rest (insert pfx acc) hrest, pathsOf_cons,
            entryPaths_structDiff h1 h2f]
          ext x
          simp [Finset.mem_insert]
          tauto
      · have h1f := bool_false_of_not_true h1
        rw [dif_neg h1, ih rest acc hrest, pathsOf_cons, entryPaths_none h1f]
        simp

theorem runStack_eq (es : List Entry) (acc : Finset Path) :
    runStack es acc = acc ∪ pathsOf es :=
  runStack_eq_aux (stackW es) es acc (Nat.le_refl _)

theorem runQueue_eq_aux : ∀ (W : Nat) (es : List Entry) (acc : Finset Path),
    stackW es ≤ W → runQueue es acc = acc ∪ pathsOf es := by
  intro W
  induction W with
  | zero =>
    intro es acc h
    cases es with
    | nil => simp [runQueue, pathsOf]
    | cons e rest =>
      exfalso
      have hc := stackW_cons e rest
      have he : 1 ≤ entryW e := by simp [entryW]
      omega
  | succ W ih =>
    intro es acc h
    cases es with
    | nil => simp [runQueue, pathsOf]
    | cons e rest =>
      obtain ⟨pfx, nodes⟩ := e
      have hc := stackW_cons (pfx, nodes) rest
      have he : 1 ≤ entryW (pfx, nodes) := by simp [entryW]
      have hrest : stackW rest ≤ W := by omega
      rw [runQueue]
      by_cases h1 : nodes.any Node.isImplicit = true
      · rw [dif_pos h1]
        by_cases h2 : structsAllEq (nodes.map fun n => (flatten_one_implicit_layer n).2) = true
        · rw [dif_pos h2]
          by_cases h3 : (zipGroups (nodes.map fun n => (flatten_one_implicit_layer n).1)).any avalDiffGroup = true
          · rw [if_pos h3, ih rest (insert pfx acc) hrest, pathsOf_cons,
              entryPaths_avalDiff h1 h2 h3]
            ext x
            simp [Finset.mem_insert]
            tauto
          · have h3f := bool_false_of_not_true h3
            rw [if_neg h3]
            have hpush : stackW
                (rest ++ enumGroups pfx (zipGroups (nodes.map fun n => (flatten_one_implicit_layer n).1)))
                  ≤ W := by
              rw [stackW_append]
              have hp := pushW_lt pfx h1 h2
              have he2 : entryW (pfx, nodes) = 1 + listW nodes := rfl
              omega
            rw [ih _ acc hpush, pathsOf_append, pathsOf_enumGroups h1 h2 h3f, pathsOf_cons]
            ext x
            simp
            tauto
        · have h2f := bool_false_of_not_true h2
          rw [dif_neg h2, ih rest (insert pfx acc) hrest, pathsOf_cons,
            entryPaths_structDiff h1 h2f]
          ext x
          simp [Finset.mem_insert]
          tauto
      · have h1f := bool_false_of_not_true h1
        rw [dif_neg h1, ih rest acc hrest, pathsOf_cons, entryPaths_none h1f]
        simp

theorem runQueue_eq (es : List Entry) (acc : Finset Path) :
    runQueue es acc = acc ∪ pathsOf es :=
  runQueue_eq_aux (stackW es) es acc (Nat.le_refl _)

theorem bool_true_of_not_false {b : Bool} (h : ¬ b = false) : b = true := by
  cases b
  · exact absurd rfl h
  · rfl

theorem listW_eq_zero {ns : List Node} (h : listW ns = 0) : ns = [] := by
  cases ns with
  | nil => rfl
  | cons n rest =>
    exfalso
    have := nodeW_pos n
    rw [listW_cons] at h
    omega

theorem mem_foldr_union {p : Path} {l : List Nat} {f : Nat → Finset Path} :
    (p ∈ (l.map f).foldr (· ∪ ·) ∅) ↔ ∃ i ∈ l, p ∈ f i := by
  induction l with
  | nil => simp
  | cons j t ih => simp [ih]

/-- Every path contributed by a work-set entry extends the entry's prefix. -/
theorem entryPaths_extends : ∀ (W : Nat) (pfx : Path) (nodes : List Node),
    listW nodes ≤ W → ∀ p ∈ entryPaths pfx nodes, pathLE pfx p = true := by
  intro W
  induction W with
  | zero =>
    intro pfx nodes h p hp
    have : nodes = [] := listW_eq_zero (by omega)
    subst this
    rw [entryPaths_none (by simp)] at hp
    cases hp
  | succ W ih =>
    intro pfx nodes h p hp
    by_cases h1 : nodes.any Node.isImplicit = true
    · by_cases h2 : structsAllEq (nodes.map fun n => (flatten_one_implicit_layer n).2) = true
      · by_cases h3 : (zipGroups (nodes.map fun n => (flatten_one_implicit_layer n).1)).any avalDiffGroup = true
        · rw [entryPaths_avalDiff h1 h2 h3] at hp
          rw [Finset.mem_singleton.mp hp]
          exact pathLE_refl pfx
        · rw [entryPaths_push h1 h2 (bool_false_of_not_true h3)] at hp
          obtain ⟨i, hi, hpi⟩ := mem_foldr_union.mp hp
          have hw : listW ((nodes.map fun n => (flatten_one_implicit_layer n).1).map (getIdx i))
              ≤ W := by
            have := groupW_lt h1 h2 (List.mem_range.mp hi)
            omega
          have := ih (pfx ++ [i]) _ hw p hpi
          exact pathLE_trans (pathLE_append pfx [i]) this
      · rw [entryPaths_structDiff h1 (bool_false_of_not_true h2)] at hp
        rw [Finset.mem_singleton.mp hp]
        exact pathLE_refl pfx
    · rw [entryPaths_none (bool_false_of_not_true h1)] at hp
      cases hp

/-- Paths found under two distinct sibling branches are never
prefix-related. -/
theorem branch_incomp {pfx : Path} {i j : Nat} {p q : Path} (hij : i ≠ j)
    (hp : pathLE (pfx ++ [i]) p = true) (hq : pathLE (pfx ++ [j]) q = true) :
    pathLE p q = false := by
  by_contra hcon
  have hpq : pathLE p q = true := bool_true_of_not_false hcon
  have h1 : pathLE (pfx ++ [i]) q = true := pathLE_trans hp hpq
  have heq : pfx ++ [i] = pfx ++ [j] :=
    pathLE_same_length_eq h1 hq (by simp)
  exact hij (by simpa using heq)

/-- The path set of one work-set entry is prefix-free. -/
theorem entryPaths_free : ∀ (W : Nat) (pfx : Path) (nodes : List Node),
    listW nodes ≤ W → ∀ p ∈ entryPaths pfx nodes, ∀ q ∈ entryPaths pfx nodes,
      p ≠ q → pathLE p q = false := by
  intro W
  induction W with
  | zero =>
    intro pfx nodes h p hp q hq hne
    have : nodes = [] := listW_eq_zero (by omega)
    subst this
    rw [entryPaths_none (by simp)] at hp
    cases hp
  | succ W ih =>
    intro pfx nodes h p hp q hq hne
    by_cases h1 : nodes.any Node.isImplicit = true
    · by_cases h2 : structsAllEq (nodes.map fun n => (flatten_one_implicit_layer n).2) = true
      · by_cases h3 : (zipGroups (nodes.map fun n => (flatten_one_implicit_layer n).1)).any avalDiffGroup = true
        · rw [entryPaths_avalDiff h1 h2 h3] at hp hq
          exact absurd ((Finset.mem_singleton.mp hp).trans
            (Finset.mem_singleton.mp hq).symm) hne
        · rw [entryPaths_push h1 h2 (bool_false_of_not_true h3)] at hp hq
          obtain ⟨i, hi, hpi⟩ := mem_foldr_union.mp hp
          obtain ⟨j, hj, hqj⟩ := mem_foldr_union.mp hq
          have hwi : listW ((nodes.map fun n => (flatten_one_implicit_layer n).1).map (getIdx i))
              ≤ W := by
            have := groupW_lt h1 h2 (List.mem_range.mp hi)
            omega
          have hwj : listW ((nodes.map fun n => (flatten_one_implicit_layer n).1).map (getIdx j))
              ≤ W := by
            have := groupW_lt h1 h2 (List.mem_range.mp hj)
            omega
          by_cases hij : i = j
          · subst hij
            exact ih (pfx ++ [i]) _ hwi p hpi q hqj hne
          · exact branch_incomp hij
              (entryPaths_extends W (pfx ++ [i]) _ hwi p hpi)
              (entryPaths_extends W (pfx ++ [j]) _ hwj q hqj)
      · rw [entryPaths_structDiff h1 (bool_false_of_not_true h2)] at hp hq
        exact absurd ((Finset.mem_singleton.mp hp).trans
          (Finset.mem_singleton.mp hq).symm) hne
    · rw [entryPaths_none (bool_false_of_not_true h1)] at hp
      cases hp

/-- Each path found in the enumerated entries of a group list extends the
common prefix by one branch index at least the starting index. -/
theorem pathsOf_enumFrom_extends (pfx : Path) :
    ∀ (gs : List (List Node)) (i : Nat) (p : Path),
      p ∈ pathsOf (enumGroupsFrom pfx i gs) →
      ∃ j, i ≤ j ∧ pathLE (pfx ++ [j]) p = true := by
  intro gs
  induction gs with
  | nil =>
    intro i p hp
    simp [enumGroupsFrom, pathsOf] at hp
  | cons g rest ih =>
    intro i p hp
    rw [enumGroupsFrom, pathsOf_cons, Finset.mem_union] at hp
    rcases hp with hp | hp
    · exact ⟨i, Nat.le_refl i,
        entryPaths_extends (listW g) (pfx ++ [i]) g (Nat.le_refl _) p hp⟩
    · obtain ⟨j, hj, hle⟩ := ih (i + 1) p hp
      exact ⟨j, by omega, hle⟩

/-- The union of the path sets of the enumerated entries of a group list is
prefix-free. -/
theorem pathsOf_enumFrom_free (pfx : Path) :
    ∀ (gs : List (List Node)) (i : Nat) (p : Path),
      p ∈ pathsOf (enumGroupsFrom pfx i gs) →
      ∀ q ∈ pathsOf (enumGroupsFrom pfx i gs), p ≠ q → pathLE p q = false := by
  intro gs
  induction gs with
  | nil =>
    intro i p hp
    simp [enumGroupsFrom, pathsOf] at hp
  | cons g rest ih =>
    intro i p hp q hq hne
    rw [enumGroupsFrom, pathsOf_cons, Finset.mem_union] at hp hq
    rcases hp with hp | hp <;> rcases hq with hq | hq
    · exact entryPaths_free (listW g) (pfx ++ [i]) g (Nat.le_refl _) p hp q hq hne
    · obtain ⟨j, hj, hle⟩ := pathsOf_enumFrom_extends pfx rest (i + 1) q hq
      exact branch_incomp (by omega)
        (entryPaths_extends (listW g) (pfx ++ [i]) g (Nat.le_refl _) p hp) hle
    · obtain ⟨j, hj, hle⟩ := pathsOf_enumFrom_extends pfx rest (i + 1) p hp
      exact branch_incomp (by omega) hle
        (entryPaths_extends (listW g) (pfx ++ [i]) g (Nat.le_refl _) q hq)
    · exact ih (i + 1) p hp q hq hne

/- Helpers around getIdx, set and the fold of unions. -/

theorem getIdx_of_get? {l : List Node} {i : Nat} {c : Node} (h : l.get? i = some c) :
    getIdx i l = c := by
  unfold getIdx
  rw [h]
  rfl

theorem getIdx_set_ne {l : List Node} {i j : Nat} {x : Node} (h : i ≠ j) :
    getIdx j (l.set i x) = getIdx j l := by
  unfold getIdx
  rw [List.get?_set_ne x l h]

theorem get?_lt_length {l : List Node} {i : Nat} {c : Node} (h : l.get? i = some c) :
    i < l.length := by
  by_contra hcon
  rw [List.get?_eq_none.mpr (by omega)] at h
  cases h

theorem getIdx_set_self {l : List Node} {i : Nat} {x : Node} (h : i < l.length) :
    getIdx i (l.set i x) = x := by
  unfold getIdx
  rw [List.get?_set_eq_of_lt x h]
  rfl

theorem foldr_union_eq_empty {l : List Nat} {f : Nat → Finset Path}
    (h : ∀ i ∈ l, f i = ∅) : (l.map f).foldr (· ∪ ·) ∅ = ∅ := by
  ext x
  rw [mem_foldr_union]
  simp only [Finset.not_mem_empty, iff_false, not_exists]
  intro i hand
  rw [h i hand.1] at hand
  exact absurd hand.2 (Finset.not_mem_empty x)

theorem foldr_union_singleton {l : List Nat} {f : Nat → Finset Path} {i : Nat} {v : Path}
    (hi : i ∈ l) (hfi : f i = {v}) (hother : ∀ j ∈ l, j ≠ i → f j = ∅) :
    (l.map f).foldr (· ∪ ·) ∅ = {v} := by
  ext x
  rw [mem_foldr_union, Finset.mem_singleton]
  constructor
  · rintro ⟨j, hj, hx⟩
    by_cases hji : j = i
    · subst hji
      rw [hfi] at hx
      exact Finset.mem_singleton.mp hx
    · rw [hother j hj hji] at hx
      cases hx
  · rintro rfl
    exact ⟨i, hi, by rw [hfi]; exact Finset.mem_singleton_self _⟩

/-- Replacing strictly below a node, or replacing the node by one with the
same declared aval, does not change the node's aval. -/
theorem replaceAtNode_aval {c : Node} {r : Path} {v c2 u : Node}
    (hrep : replaceAtNode c r v = some c2) (hget : getAtNode c r = some u)
    (hav : u.get_aval = v.get_aval) : c2.get_aval = c.get_aval := by
  cases r with
  | nil =>
    simp only [replaceAtNode, Option.some_inj] at hrep
    simp only [getAtNode, Option.some_inj] at hget
    rw [← hrep, ← hav, hget]
  | cons i r2 =>
    cases c with
    | concrete a => simp [replaceAtNode] at hrep
    | implicit a tg cs m =>
      simp only [replaceAtNode] at hrep
      cases hc : cs.get? i with
      | none =>
        simp only [hc] at hrep
        exact Option.noConfusion hrep
      | some ch =>
        simp only [hc] at hrep
        cases hr : replaceAtNode ch r2 v with
        | none =>
          simp only [hr] at hrep
          exact Option.noConfusion hrep
        | some ch2 =>
          simp only [hr, Option.some_inj] at hrep
          rw [← hrep]
          rfl

/-- A work-set entry holding the same node twice contributes no
materialization path: identical nodes agree on structure and avals at
every level. -/
theorem entryPaths_pair_same : ∀ (W : Nat) (pfx : Path) (x : Node), nodeW x ≤ W →
    entryPaths pfx [x, x] = ∅ := by
  intro W
  induction W with
  | zero =>
    intro pfx x h
    have := nodeW_pos x
    omega
  | succ W ih =>
    intro pfx x h
    cases x with
    | concrete a => exact entryPaths_none (by simp [Node.isImplicit])
    | implicit a tg cs m =>
      have h1 : ([Node.implicit a tg cs m, Node.implicit a tg cs m].any Node.isImplicit) = true := by
        simp [Node.isImplicit]
      have h2 : structsAllEq (([Node.implicit a tg cs m, Node.implicit a tg cs m].map
          fun n => (flatten_one_implicit_layer n).2)) = true := by
        simp [flatten_one_implicit_layer, structsAllEq]
      have hch : ([Node.implicit a tg cs m, Node.implicit a tg cs m].map
          fun n => (flatten_one_implicit_layer n).1) = [cs, cs] := by
        simp [flatten_one_implicit_layer]
      have h3 : ((zipGroups ([Node.implicit a tg cs m, Node.implicit a tg cs m].map
          fun n => (flatten_one_implicit_layer n).1)).any avalDiffGroup) = false := by
        rw [hch]
        rw [List.any_eq_false]
        intro row hrow
        rw [zipGroups] at hrow
        obtain ⟨j, hj, rfl⟩ := List.mem_map.mp hrow
        simp [avalDiffGroup]
      rw [entryPaths_push h1 h2 h3, hch]
      apply foldr_union_eq_empty
      intro j hj
      have hjlt : j < cs.length := by
        have := List.mem_range.mp hj
        rw [show minArity [cs, cs] = cs.length by simp [minArity]] at this
        exact this
      have hmem : getIdx j cs ∈ cs := getIdx_mem hjlt
      have hw : nodeW (getIdx j cs) ≤ W := by
        have h4 := nodeW_le_listW_of_mem hmem
        have h5 : nodeW (Node.implicit a tg cs m) = 1 + 2 * listW cs := rfl
        omega
      have : ([cs, cs].map (getIdx j)) = [getIdx j cs, getIdx j cs] := rfl
      rw [this]
      exact ih _ _ hw

/-- Along a spine where the two trees differ only in the subtree at the
remaining path, and where the final nodes are both implicit with equal
declared avals but different one-layer structures, the entry contributes
exactly the full path and nothing else. -/
theorem entryPaths_spine : ∀ (r : Path) (pfx : Path) (x x2 u v : Node),
    getAtNode x r = some u → replaceAtNode x r v = some x2 →
    u.isImplicit = true → v.isImplicit = true →
    u.get_aval = v.get_aval →
    (flatten_one_implicit_layer u).2 ≠ (flatten_one_implicit_layer v).2 →
    entryPaths pfx [x, x2] = {pfx ++ r} := by
  intro r
  induction r with
  | nil =>
    intro pfx x x2 u v hget hrep hui hvi hav hstr
    have hxu : x = u := by simpa [getAtNode] using hget
    have hx2v : v = x2 := by simpa [replaceAtNode] using hrep
    rw [hxu, ← hx2v]
    have h1 : ([u, v].any Node.isImplicit) = true := by
      simp [hui]
    have h2 : structsAllEq ([u, v].map fun n => (flatten_one_implicit_layer n).2) = false := by
      simp only [List.map_cons, List.map_nil, structsAllEq, List.all_cons, List.all_nil,
        Bool.and_true]
      exact beq_eq_false_iff_ne.mpr fun heq => hstr heq.symm
    rw [entryPaths_structDiff h1 h2]
    simp
  | cons i r2 ih =>
    intro pfx x x2 u v hget hrep hui hvi hav hstr
    cases x with
    | concrete a => simp [getAtNode] at hget
    | implicit a tg cs m =>
      simp only [getAtNode] at hget
      simp only [replaceAtNode] at hrep
      cases hc : cs.get? i with
      | none =>
        simp only [hc] at hget
        exact Option.noConfusion hget
      | some c =>
        simp only [hc] at hget hrep
        cases hr : replaceAtNode c r2 v with
        | none =>
          simp only [hr] at hrep
          exact Option.noConfusion hrep
        | some c2 =>
          simp only [hr, Option.some_inj] at hrep
          subst hrep
          have hilt : i < cs.length := get?_lt_length hc
          have h1 : ([Node.implicit a tg cs m,
              Node.implicit a tg (cs.set i c2) m].any Node.isImplicit) = true := by
            simp [Node.isImplicit]
          have h2 : structsAllEq ([Node.implicit a tg cs m,
              Node.implicit a tg (cs.set i c2) m].map
                fun n => (flatten_one_implicit_layer n).2) = true := by
            simp [flatten_one_implicit_layer, structsAllEq, List.length_set]
          have hch : ([Node.implicit a tg cs m, Node.implicit a tg (cs.set i c2) m].map
              fun n => (flatten_one_implicit_layer n).1) = [cs, cs.set i c2] := by
            simp [flatten_one_implicit_layer]
          have hmin : minArity [cs, cs.set i c2] = cs.length := by
            simp [minArity, List.length_set]
          have hrowEq : ∀ j, j ≠ i → ([cs, cs.set i c2].map (getIdx j))
              = [getIdx j cs, getIdx j cs] := by
            intro j hji
            have := getIdx_set_ne (l := cs) (x := c2) fun hij => hji hij.symm
            simp [this]
          have hc2aval : c2.get_aval = c.get_aval := replaceAtNode_aval hr hget hav
          have h3 : ((zipGroups ([Node.implicit a tg cs m,
              Node.implicit a tg (cs.set i c2) m].map
                fun n => (flatten_one_implicit_layer n).1)).any avalDiffGroup) = false := by
            rw [hch, zipGroups, hmin, List.any_eq_false]
            intro row hrow
            obtain ⟨j, hj, rfl⟩ := List.mem_map.mp hrow
            by_cases hji : j = i
            · subst hji
              have e1 : getIdx j cs = c := getIdx_of_get? hc
              have e2 : getIdx j (cs.set j c2) = c2 := getIdx_set_self hilt
              simp [avalDiffGroup, e1, e2, hc2aval]
            · rw [hrowEq j hji]
              simp [avalDiffGroup]
          rw [entryPaths_push h1 h2 h3, hch, hmin]
          have hmemrange : i ∈ List.range cs.length := List.mem_range.mpr hilt
          have hfi : entryPaths (pfx ++ [i]) ([cs, cs.set i c2].map (getIdx i))
              = {pfx ++ i :: r2} := by
            have e1 : getIdx i cs = c := getIdx_of_get? hc
            have e2 : getIdx i (cs.set i c2) = c2 := getIdx_set_self hilt
            have emap : ([cs, cs.set i c2].map (getIdx i)) = [c, c2] := by
              simp [e1, e2]
            rw [emap, ih (pfx ++ [i]) c c2 u v hget hr hui hvi hav hstr]
            simp
          have hother : ∀ j ∈ List.range cs.length, j ≠ i →
              entryPaths (pfx ++ [j]) ([cs, cs.set i c2].map (getIdx j)) = ∅ := by
            intro j hj hji
            rw [hrowEq j hji]
            exact entryPaths_pair_same (nodeW (getIdx j cs)) _ _ (Nat.le_refl _)
          exact foldr_union_singleton hmemrange hfi hother

/- Precondition-check lemmas. -/

theorem checkLeafAvals_of_eq (i : Nat) :
    ∀ (ls : List Node) (es : List Aval), ls.map Node.get_aval = es →
      checkLeafAvals i ls es = .ok () := by
  intro ls
  induction ls with
  | nil =>
    intro es h
    rw [← h]
    rfl
  | cons c rest ih =>
    intro es h
    rw [← h]
    simp only [List.map_cons, checkLeafAvals, if_pos rfl]
    exact ih _ rfl

theorem map_aval_set {ls : List Node} {i : Nat} {c c2 : Node}
    (hc : ls.get? i = some c) (hav : c2.get_aval = c.get_aval) :
    (ls.set i c2).map Node.get_aval = ls.map Node.get_aval := by
  induction ls generalizing i with
  | nil => cases hc
  | cons d rest ih =>
    cases i with
    | zero =>
      simp only [List.get?] at hc
      simp only [Option.some_inj] at hc
      subst hc
      simp [List.set, hav]
    | succ i2 =>
      simp only [List.get?] at hc
      simp [List.set, ih hc]

theorem pathsOf_enumGroups_range (pfx : Path) (G : Nat → List Node) (k : Nat) :
    pathsOf (enumGroups pfx ((List.range k).map G))
      = ((List.range k).map fun j => entryPaths (pfx ++ [j]) (G j)).foldr (· ∪ ·) ∅ := by
  rw [enumGroups, List.range_eq_range']
  exact pathsOf_range_map pfx G k 0

/-- The precondition phase accepts a tree together with a copy of itself
that differs only by a replacement with equal top-level declared aval. -/
theorem checkTrees_set {t : Tree} {i : Nat} {c c2 : Node}
    (hc : t.leaves.get? i = some c) (hav : c2.get_aval = c.get_aval) :
    checkTrees [t, ⟨t.tag, t.leaves.set i c2⟩] = .ok () := by
  rw [checkTrees, checkRest]
  have hstructEq : treeStructId ⟨t.tag, t.leaves.set i c2⟩ = treeStructId t := by
    simp [treeStructId, List.length_set]
  rw [if_neg (fun hne => hne hstructEq)]
  rw [checkLeafAvals_of_eq 1 _ _ (map_aval_set hc hav)]
  rfl

/- Claim theorems. -/

/-- C1.  Minimality of reconciliation: take any tree t with an implicit
node u at path i :: r, and replace that node by any implicit node v with
the same declared aval but a different one-layer expansion structure,
giving t2.  The pair [t, t2] passes the precondition checks and the
materialization path set computed by get_common_prefix_transforms is
exactly the singleton containing that path: no ancestor, no descendant and
no unrelated path occurs. -/
theorem claim_C1 (t : Tree) (i : Nat) (r : Path) (u v : Node) (t2 : Tree)
    (hget : t.getAt (i :: r) = some u)
    (hrep : t.replaceAt (i :: r) v = some t2)
    (hui : u.isImplicit = true) (hvi : v.isImplicit = true)
    (hav : u.get_aval = v.get_aval)
    (hstr : (flatten_one_implicit_layer u).2 ≠ (flatten_one_implicit_layer v).2) :
    get_common_prefix_paths [t, t2] = .ok {i :: r} := by
  simp only [Tree.getAt] at hget
  simp only [Tree.replaceAt] at hrep
  cases hc : t.leaves.get? i with
  | none =>
    simp only [hc] at hget
    exact Option.noConfusion hget
  | some c =>
    simp only [hc] at hget hrep
    cases hr : replaceAtNode c r v with
    | none =>
      simp only [hr] at hrep
      exact Option.noConfusion hrep
    | some c2 =>
      simp only [hr, Option.some_inj] at hrep
      subst hrep
      have hilt : i < t.leaves.length := get?_lt_length hc
      have hc2aval : c2.get_aval = c.get_aval := replaceAtNode_aval hr hget hav
      rw [get_common_prefix_paths, if_neg (by simp)]
      rw [checkTrees_set hc hc2aval]
      show Except.ok (runStack (initEntries [t, ⟨t.tag, t.leaves.set i c2⟩]).reverse ∅)
          = Except.ok {i :: r}
      rw [runStack_eq, pathsOf_reverse, Finset.empty_union]
      have hmin : minArity [t.leaves, t.leaves.set i c2] = t.leaves.length := by
        simp [minArity, List.length_set]
      have hzip : zipGroups [t.leaves, t.leaves.set i c2]
          = (List.range t.leaves.length).map
              fun j => [getIdx j t.leaves, getIdx j (t.leaves.set i c2)] := by
        rw [zipGroups, hmin]
        rfl
      have hinit : initEntries [t, ⟨t.tag, t.leaves.set i c2⟩]
          = enumGroups [] ((List.range t.leaves.length).map
              fun j => [getIdx j t.leaves, getIdx j (t.leaves.set i c2)]) := by
        rw [initEntries]
        simp only [List.map_cons, List.map_nil, Tree.leaves]
        rw [hzip]
      rw [hinit, pathsOf_enumGroups_range]
      congr 1
      have hmemrange : i ∈ List.range t.leaves.length := List.mem_range.mpr hilt
      have hfi : entryPaths ([] ++ [i]) [getIdx i t.leaves, getIdx i (t.leaves.set i c2)]
          = {i :: r} := by
        rw [getIdx_of_get? hc, getIdx_set_self hilt]
        rw [entryPaths_spine r ([] ++ [i]) c c2 u v hget hr hui hvi hav hstr]
        simp
      have hother : ∀ j ∈ List.range t.leaves.length, j ≠ i →
          entryPaths ([] ++ [j]) [getIdx j t.leaves, getIdx j (t.leaves.set i c2)] = ∅ := by
        intro j hj hji
        rw [getIdx_set_ne (fun hij => hji hij.symm)]
        exact entryPaths_pair_same (nodeW (getIdx j t.leaves)) _ _ (Nat.le_refl _)
      exact foldr_union_singleton hmemrange hfi hother

/-- C2.  No-prefix invariant: whenever get_common_prefix_transforms
completes without fault, the materialization path set it accumulates never
contains two distinct paths of which one is a prefix of the other (the set
only grows during the loop, so the property of the final set covers every
intermediate state). -/
theorem claim_C2 (trees : List Tree) (s : Finset Path)
    (h : get_common_prefix_paths trees = .ok s) :
    ∀ p ∈ s, ∀ q ∈ s, p ≠ q → pathLE p q = false := by
  rw [get_common_prefix_paths] at h
  by_cases hlen : trees.length ≤ 1
  · rw [if_pos hlen] at h
    simp only [Except.ok.injEq] at h
    subst h
    intro p hp
    cases hp
  · rw [if_neg hlen] at h
    cases hcheck : checkTrees trees with
    | error e =>
      rw [hcheck] at h
      cases h
    | ok w =>
      rw [hcheck] at h
      simp only [Except.ok.injEq] at h
      subst h
      rw [runStack_eq, pathsOf_reverse, Finset.empty_union, initEntries, enumGroups]
      intro p hp q hq hne
      exact pathsOf_enumFrom_free [] _ 0 p hp q hq hne

/-- C3.  Order independence of the work set: processing the work set as a
LIFO stack (as the source does) or as a FIFO queue produces the same
materialization path set, and hence the same result of
get_common_prefix_transforms, on every input. -/
theorem claim_C3 (trees : List Tree) :
    get_common_prefix_paths trees = get_common_prefix_paths_fifo trees := by
  rw [get_common_prefix_paths, get_common_prefix_paths_fifo]
  by_cases hlen : trees.length ≤ 1
  · rw [if_pos hlen, if_pos hlen]
  · rw [if_neg hlen, if_neg hlen]
    cases checkTrees trees with
    | error e => rfl
    | ok w =>
      rw [runStack_eq, runQueue_eq, pathsOf_reverse]

/-- C4.  Stop-entirely on metadata mismatch: when a popped work entry has
all one-layer structure descriptors equal but some positionwise group
disagrees on declared (shape, dtype), the loop continues with the prefix
inserted once into the accumulator and the remaining stack unchanged — no
child entry is enqueued, not even for groups whose metadata matched — and
the entry's total contribution is exactly its prefix. -/
theorem claim_C4 (pfx : Path) (nodes : List Node) (rest : List Entry) (acc : Finset Path)
    (hany : nodes.any Node.isImplicit = true)
    (hstr : structsAllEq (nodes.map fun n => (flatten_one_implicit_layer n).2) = true)
    (hdiff : (zipGroups (nodes.map fun n => (flatten_one_implicit_layer n).1)).any avalDiffGroup = true) :
    runStack ((pfx, nodes) :: rest) acc = runStack rest (insert pfx acc)
      ∧ entryPaths pfx nodes = {pfx} := by
  constructor
  · rw [runStack, dif_pos hany, dif_pos hstr, if_pos hdiff]
  · exact entryPaths_avalDiff hany hstr hdiff

/- Pruning-transform lemmas (laziness preservation and frontier forcing). -/

theorem getAtNode_nil (n : Node) : getAtNode n [] = some n := by
  cases n <;> rfl

theorem pathLE_extend_false {s : Finset Path} {path : Path} {j : Nat}
    (h : ∀ q ∈ s, pathLE path q = false) :
    ∀ q ∈ s, pathLE (path ++ [j]) q = false := by
  intro q hq
  by_contra hcon
  have h2 : pathLE (path ++ [j]) q = true := bool_true_of_not_false hcon
  have h3 : pathLE path q = true := pathLE_trans (pathLE_append path [j]) h2
  rw [h q hq] at h3
  cases h3

/-- Leaves whose subtree contains no recorded path are returned unchanged
by the pruning visitor: the one-layer expansions are rebuilt into the same
ImplicitArray. -/
theorem mapOneLeaf_outside (s : Finset Path) :
    ∀ (W : Nat) (leaf : Node) (path : Path), nodeW leaf ≤ W →
      (∀ q ∈ s, pathLE path q = false) →
      mapOneLeaf (fun _ n => materializeLoop n) (fun p _ => decide (p ∈ s)) path leaf
        = leaf := by
  intro W
  induction W with
  | zero =>
    intro leaf path hw hq
    have := nodeW_pos leaf
    omega
  | succ W ih =>
    intro leaf path hw hq
    have hstop : decide (path ∈ s) = false := by
      rw [decide_eq_false_iff_not]
      intro hmem
      have := hq path hmem
      rw [pathLE_refl] at this
      cases this
    cases leaf with
    | concrete a =>
      rw [mapOneLeaf]
      simp [Node.isImplicit, materializeLoop]
    | implicit a tg cs m =>
      rw [mapOneLeaf]
      rw [if_neg (by simp [Node.isImplicit, hstop])]
      have hlist : ∀ (ds : List Node) (j : Nat), listW ds ≤ listW cs →
          (∀ c ∈ ds, nodeW c ≤ listW cs) →
          mapLeavesIdx (fun _ n => materializeLoop n) (fun p _ => decide (p ∈ s))
            path j ds = ds := by
        intro ds
        induction ds with
        | nil => intro j _ _; rw [mapLeavesIdx]
        | cons c rest ihd =>
          intro j hwd hmem
          rw [mapLeavesIdx]
          have hcw : nodeW c ≤ W := by
            have h1 := hmem c (by simp)
            have h2 : nodeW (Node.implicit a tg cs m) = 1 + 2 * listW cs := rfl
            omega
          rw [ih c (path ++ [j]) hcw (pathLE_extend_false hq)]
          rw [ihd (j + 1) (by rw [listW_cons] at hwd; have := nodeW_pos c; omega)
            (fun x hx => hmem x (List.mem_cons_of_mem _ hx))]
      rw [hlist cs 0 (Nat.le_refl _) (fun x hx => nodeW_le_listW_of_mem hx)]

/-- The index arithmetic of the pruning visitor: the mapped list at
position j holds the image of the original leaf under the path extended by
the starting index plus j. -/
theorem mapLeavesIdx_get? (f : Path → Node → Node) (stop : Path → Node → Bool)
    (pfx : Path) :
    ∀ (ls : List Node) (j0 j : Nat),
      (mapLeavesIdx f stop pfx j0 ls).get? j
        = (ls.get? j).map fun c => mapOneLeaf f stop (pfx ++ [j0 + j]) c := by
  intro ls
  induction ls with
  | nil => intro j0 j; rw [mapLeavesIdx]; rfl
  | cons c rest ih =>
    intro j0 j
    rw [mapLeavesIdx]
    cases j with
    | zero => simp [List.get?]
    | succ j2 =>
      simp only [List.get?]
      rw [ih (j0 + 1) j2]
      have : j0 + 1 + j2 = j0 + (j2 + 1) := by omega
      rw [this]

/-- The pruning visitor leaves the subtree at a path untouched when no
recorded path is comparable with it. -/
theorem mapped_getAt_outside (s : Finset Path) :
    ∀ (rest path : Path) (leaf u : Node),
      getAtNode leaf rest = some u →
      (∀ q ∈ s, pathLE q (path ++ rest) = false) →
      (∀ q ∈ s, pathLE (path ++ rest) q = false) →
      getAtNode
        (mapOneLeaf (fun _ n => materializeLoop n) (fun p _ => decide (p ∈ s)) path leaf)
        rest = some u := by
  intro rest
  induction rest with
  | nil =>
    intro path leaf u hget h1 h2
    rw [mapOneLeaf_outside s (nodeW leaf) leaf path (Nat.le_refl _) (by simpa using h2)]
    exact hget
  | cons j rest2 ih =>
    intro path leaf u hget h1 h2
    cases leaf with
    | concrete a => simp [getAtNode] at hget
    | implicit a tg cs m =>
      simp only [getAtNode] at hget
      cases hc : cs.get? j with
      | none =>
        simp only [hc] at hget
        exact Option.noConfusion hget
      | some c =>
        simp only [hc] at hget
        have hstop : decide (path ∈ s) = false := by
          rw [decide_eq_false_iff_not]
          intro hmem
          have h3 := h1 path hmem
          rw [pathLE_append] at h3
          cases h3
        rw [mapOneLeaf, if_neg (by simp [Node.isImplicit, hstop])]
        simp only [getAtNode]
        rw [mapLeavesIdx_get? _ _ _ cs 0 j, hc]
        simp only [Option.map_some, Nat.zero_add]
        have happ : (path ++ [j]) ++ rest2 = path ++ j :: rest2 := by simp
        exact ih (path ++ [j]) c u hget
          (by rw [happ]; exact h1) (by rw [happ]; exact h2)

/-- The pruning visitor replaces the subtree at a recorded path by the
materialization loop of the original node there (prefix-freeness
guarantees the spine above it is never stopped). -/
theorem mapped_getAt_mem (s : Finset Path) (hfree : prefixFree s) :
    ∀ (rest path : Path) (leaf u : Node),
      getAtNode leaf rest = some u →
      (path ++ rest) ∈ s →
      getAtNode
        (mapOneLeaf (fun _ n => materializeLoop n) (fun p _ => decide (p ∈ s)) path leaf)
        rest = some (materializeLoop u) := by
  intro rest
  induction rest with
  | nil =>
    intro path leaf u hget hmem
    simp only [List.append_nil] at hmem
    simp only [getAtNode, Option.some_inj] at hget
    subst hget
    rw [mapOneLeaf.eq_def]
    rw [if_pos (by simp [hmem])]
    exact getAtNode_nil _
  | cons j rest2 ih =>
    intro path leaf u hget hmem
    cases leaf with
    | concrete a => simp [getAtNode] at hget
    | implicit a tg cs m =>
      simp only [getAtNode] at hget
      cases hc : cs.get? j with
      | none =>
        simp only [hc] at hget
        exact Option.noConfusion hget
      | some c =>
        simp only [hc] at hget
        have hstop : decide (path ∈ s) = false := by
          rw [decide_eq_false_iff_not]
          intro hpmem
          have hne : path ≠ path ++ j :: rest2 := by
            intro heq
            have := congrArg List.length heq
            simp at this
          have := hfree path hpmem (path ++ j :: rest2) hmem hne
          rw [pathLE_append] at this
          cases this
        rw [mapOneLeaf, if_neg (by simp [Node.isImplicit, hstop])]
        simp only [getAtNode]
        rw [mapLeavesIdx_get? _ _ _ cs 0 j, hc]
        simp only [Option.map_some, Nat.zero_add]
        have happ : (path ++ [j]) ++ rest2 = path ++ j :: rest2 := by simp
        exact ih (path ++ [j]) c u hget (by rw [happ]; exact hmem)

/-- The materialization while-loop always ends on a concrete leaf. -/
theorem materializeLoop_concrete : ∀ n : Node, (materializeLoop n).isConcrete = true := by
  intro n
  induction n using materializeLoop.induct with
  | case1 a => rw [materializeLoop]; rfl
  | case2 a tg cs m ih => rw [materializeLoop]; exact ih

/-- C5.  Laziness preserved outside the frontier: apply the transform
built by _get_pruning_transform for a prefix-free materialization path
set to the tree.  Any leaf position incomparable with every recorded path
still holds the identical node (an ImplicitArray stays an unexpanded
ImplicitArray), while the position at a recorded path now holds the full
materialization of the original node there, which is a concrete leaf. -/
theorem claim_C5 (t : Tree) (s : Finset Path) (p : Path) (u : Node)
    (hfree : prefixFree s) (hget : t.getAt p = some u) :
    ((∀ q ∈ s, pathLE q p = false ∧ pathLE p q = false) →
      (_get_pruning_transform t s t).getAt p = some u)
    ∧ (p ∈ s →
      (_get_pruning_transform t s t).getAt p = some (materializeLoop u)
        ∧ (materializeLoop u).isConcrete = true) := by
  by_cases hs : s = ∅
  · subst hs
    rw [_get_pruning_transform, if_pos rfl]
    exact ⟨fun _ => hget, fun hmem => absurd hmem (Finset.not_mem_empty p)⟩
  · rw [_get_pruning_transform, if_neg hs]
    cases p with
    | nil => simp [Tree.getAt] at hget
    | cons i r =>
      simp only [Tree.getAt] at hget
      cases hc : t.leaves.get? i with
      | none =>
        simp only [hc] at hget
        exact Option.noConfusion hget
      | some c =>
        simp only [hc] at hget
        have hgetRes : ∀ x : Node,
            (Tree.getAt ⟨t.tag, _map_leaves_with_implicit_path
                (fun _ n => materializeLoop n) t.leaves
                (fun q _ => decide (q ∈ s)) []⟩ (i :: r)
              = some x)
            ↔ (getAtNode (mapOneLeaf (fun _ n => materializeLoop n)
                (fun q _ => decide (q ∈ s)) [i] c) r = some x) := by
          intro x
          simp only [Tree.getAt, _map_leaves_with_implicit_path]
          rw [mapLeavesIdx_get? _ _ _ t.leaves 0 i, hc]
          simp
        constructor
        · intro hq
          rw [hgetRes u]
          have happ : [i] ++ r = i :: r := rfl
          exact mapped_getAt_outside s r [i] c u hget
            (by rw [happ]; exact fun q hqs => (hq q hqs).1)
            (by rw [happ]; exact fun q hqs => (hq q hqs).2)
        · intro hmem
          refine ⟨?_, materializeLoop_concrete u⟩
          rw [hgetRes (materializeLoop u)]
          have happ : [i] ++ r = i :: r := rfl
          exact mapped_getAt_mem s hfree r [i] c u hget (by rw [happ]; exact hmem)

/- Depth and identity-on-no-virtual lemmas. -/

theorem getIdx_isImplicit_false {l : List Node} {j : Nat}
    (h : ∀ n ∈ l, n.isImplicit = false) : (getIdx j l).isImplicit = false := by
  unfold getIdx
  cases hj : l.get? j with
  | none => rfl
  | some c => exact h c (List.get?_mem hj)

theorem pathsOf_enumFrom_empty (pfx : Path) :
    ∀ (gs : List (List Node)) (i : Nat),
      (∀ g ∈ gs, g.any Node.isImplicit = false) →
      pathsOf (enumGroupsFrom pfx i gs) = ∅ := by
  intro gs
  induction gs with
  | nil => intro i _; rfl
  | cons g rest ih =>
    intro i h
    rw [enumGroupsFrom, pathsOf_cons, entryPaths_none (h g (by simp)),
      ih (i + 1) (fun x hx => h x (List.mem_cons_of_mem _ hx)), Finset.empty_union]

theorem checkTrees_self (t : Tree) : checkTrees [t, t] = .ok () := by
  rw [checkTrees, checkRest, if_neg (fun hne => hne rfl),
    checkLeafAvals_of_eq 1 _ _ rfl]
  rfl

/-- The loop computes the empty path set on a pair of copies of a tree
with no ImplicitArray leaf. -/
theorem runStack_no_implicit (t : Tree) (h : ∀ n ∈ t.leaves, n.isImplicit = false) :
    runStack (initEntries [t, t]).reverse ∅ = ∅ := by
  rw [runStack_eq, pathsOf_reverse, Finset.empty_union, initEntries, enumGroups]
  apply pathsOf_enumFrom_empty
  intro g hg
  rw [zipGroups] at hg
  obtain ⟨j, hj, rfl⟩ := List.mem_map.mp hg
  simp only [List.map_cons, List.map_nil, Tree.leaves, List.any_cons, List.any_nil]
  rw [getIdx_isImplicit_false h]
  simp

/-- C7.  Identity on no-virtual input: a tree without ImplicitArray leaves
has implicit depth 0, and reconciling it with itself yields the empty
materialization path set and two identity transforms. -/
theorem claim_C7 (t : Tree) (h : ∀ n ∈ t.leaves, n.isImplicit = false) :
    implicit_depth t = 0
      ∧ get_common_prefix_paths [t, t] = .ok ∅
      ∧ get_common_prefix_transforms [t, t] = .ok [fun x => x, fun x => x] := by
  have hany : t.leaves.any Node.isImplicit = false := by
    rw [List.any_eq_false]
    intro n hn
    rw [h n hn]
    simp
  refine ⟨?_, ?_, ?_⟩
  · rw [implicit_depth, implicit_depth_leaves, dif_neg (by rw [hany]; simp)]
  · rw [get_common_prefix_paths, if_neg (by simp), checkTrees_self]
    show Except.ok (runStack (initEntries [t, t]).reverse ∅) = Except.ok ∅
    rw [runStack_no_implicit t h]
  · rw [get_common_prefix_transforms, if_neg (by simp), checkTrees_self]
    show Except.ok ([t, t].map fun tr =>
        _get_pruning_transform tr (runStack (initEntries [t, t]).reverse ∅))
      = Except.ok [fun x => x, fun x => x]
    rw [runStack_no_implicit t h]
    simp only [List.map_cons, List.map_nil]
    rw [_get_pruning_transform, if_pos rfl]

/- Erasure of materialization chains: the reconciliation computation is a
function of the declared avals and expansion topology alone, so replacing
every mat chain by a dummy leaf changes nothing.  This formalizes that
get_common_prefix_transforms never invokes _materialize. -/

theorem eraseMatList_eq_map : ∀ cs : List Node, eraseMatList cs = cs.map eraseMat := by
  intro cs
  induction cs with
  | nil => rw [eraseMatList]; rfl
  | cons c rest ih => rw [eraseMatList, ih]; rfl

theorem eraseMat_get_aval (n : Node) : (eraseMat n).get_aval = n.get_aval := by
  cases n <;> rw [eraseMat] <;> rfl

theorem eraseMat_isImplicit (n : Node) : (eraseMat n).isImplicit = n.isImplicit := by
  cases n <;> rw [eraseMat] <;> rfl

theorem eraseMat_flatten_snd (n : Node) :
    (flatten_one_implicit_layer (eraseMat n)).2 = (flatten_one_implicit_layer n).2 := by
  cases n with
  | concrete a => rw [eraseMat]
  | implicit a tg cs m =>
    rw [eraseMat]
    simp [flatten_one_implicit_layer, eraseMatList_eq_map]

theorem eraseMat_flatten_fst (n : Node) :
    (flatten_one_implicit_layer (eraseMat n)).1
      = (flatten_one_implicit_layer n).1.map eraseMat := by
  cases n with
  | concrete a =>
    rw [eraseMat]
    simp only [flatten_one_implicit_layer, List.map_cons, List.map_nil]
    rw [eraseMat]
  | implicit a tg cs m =>
    rw [eraseMat]
    simp [flatten_one_implicit_layer, eraseMatList_eq_map]

theorem any_isImplicit_map_erase : ∀ ns : List Node,
    (ns.map eraseMat).any Node.isImplicit = ns.any Node.isImplicit := by
  intro ns
  induction ns with
  | nil => rfl
  | cons c rest ih => simp [eraseMat_isImplicit, ih]

theorem any_congr_local {α : Type} {p q : α → Bool} :
    ∀ l : List α, (∀ a ∈ l, p a = q a) → l.any p = l.any q := by
  intro l
  induction l with
  | nil => intro _; rfl
  | cons a t ih =>
    intro h
    simp only [List.any_cons]
    rw [h a (by simp), ih fun x hx => h x (List.mem_cons_of_mem _ hx)]

theorem avalDiffGroup_erase (g : List Node) :
    avalDiffGroup (g.map eraseMat) = avalDiffGroup g := by
  cases g with
  | nil => rfl
  | cons x rest =>
    simp only [List.map_cons, avalDiffGroup, List.any_map]
    apply any_congr_local
    intro n _
    simp [Function.comp, eraseMat_get_aval]

theorem getIdx_map_erase (j : Nat) (l : List Node) :
    getIdx j (l.map eraseMat) = eraseMat (getIdx j l) := by
  unfold getIdx
  rw [List.get?_map]
  cases l.get? j with
  | none => simp [eraseMat]
  | some c => rfl

theorem minArity_map_erase : ∀ lss : List (List Node),
    minArity (lss.map (List.map eraseMat)) = minArity lss := by
  intro lss
  induction lss with
  | nil => rfl
  | cons l rest ih =>
    cases rest with
    | nil => simp [minArity]
    | cons l2 rest2 =>
      simp only [List.map_cons] at ih ⊢
      rw [show minArity (l.map eraseMat :: l2.map eraseMat :: rest2.map (List.map eraseMat))
          = min (l.map eraseMat).length
              (minArity (l2.map eraseMat :: rest2.map (List.map eraseMat))) from rfl,
        show minArity (l :: l2 :: rest2) = min l.length (minArity (l2 :: rest2)) from rfl,
        ih, List.length_map]

theorem zipGroups_map_erase (lss : List (List Node)) :
    zipGroups (lss.map (List.map eraseMat)) = (zipGroups lss).map (List.map eraseMat) := by
  rw [zipGroups, zipGroups, minArity_map_erase, List.map_map]
  apply List.map_congr_left
  intro j _
  simp only [Function.comp]
  rw [List.map_map, List.map_map]
  apply List.map_congr_left
  intro l _
  simp only [Function.comp]
  exact getIdx_map_erase j l

theorem listW_map_erase : ∀ (W : Nat) (n : Node), nodeW n ≤ W →
    nodeW (eraseMat n) = nodeW n := by
  intro W
  induction W with
  | zero =>
    intro n h
    have := nodeW_pos n
    omega
  | succ W ih =>
    intro n h
    cases n with
    | concrete a => rw [eraseMat]
    | implicit a tg cs m =>
      rw [eraseMat, eraseMatList_eq_map]
      have hw : nodeW (Node.implicit a tg cs m) = 1 + 2 * listW cs := rfl
      have hlist : ∀ ds : List Node, (∀ c ∈ ds, c ∈ cs) → listW (ds.map eraseMat) = listW ds := by
        intro ds
        induction ds with
        | nil => intro _; rfl
        | cons c rest ihd =>
          intro hsub
          have hc : nodeW c ≤ W := by
            have h1 := nodeW_le_listW_of_mem (hsub c (by simp))
            omega
          simp only [List.map_cons, listW_cons]
          rw [ih c hc, ihd (fun x hx => hsub x (List.mem_cons_of_mem _ hx))]
      show 1 + 2 * listW (cs.map eraseMat) = 1 + 2 * listW cs
      rw [hlist cs (fun x hx => hx)]

theorem entryPaths_erase : ∀ (W : Nat) (pfx : Path) (nodes : List Node),
    listW nodes ≤ W →
    entryPaths pfx (nodes.map eraseMat) = entryPaths pfx nodes := by
  intro W
  induction W with
  | zero =>
    intro pfx nodes h
    have hnil : nodes = [] := listW_eq_zero (by omega)
    subst hnil
    rfl
  | succ W ih =>
    intro pfx nodes h
    have hany : (nodes.map eraseMat).any Node.isImplicit = nodes.any Node.isImplicit :=
      any_isImplicit_map_erase nodes
    have hstr : (nodes.map eraseMat).map (fun n => (flatten_one_implicit_layer n).2)
        = nodes.map fun n => (flatten_one_implicit_layer n).2 := by
      rw [List.map_map]
      apply List.map_congr_left
      intro n _
      simp only [Function.comp]
      exact eraseMat_flatten_snd n
    have hch : (nodes.map eraseMat).map (fun n => (flatten_one_implicit_layer n).1)
        = (nodes.map fun n => (flatten_one_implicit_layer n).1).map (List.map eraseMat) := by
      rw [List.map_map, List.map_map]
      apply List.map_congr_left
      intro n _
      simp only [Function.comp]
      exact eraseMat_flatten_fst n
    have hcomp : (avalDiffGroup ∘ List.map eraseMat) = avalDiffGroup :=
      funext fun g => avalDiffGroup_erase g
    by_cases h1 : nodes.any Node.isImplicit = true
    · have h1e : (nodes.map eraseMat).any Node.isImplicit = true := by
        rw [hany]
        exact h1
      by_cases h2 : structsAllEq (nodes.map fun n => (flatten_one_implicit_layer n).2) = true
      · have h2e : structsAllEq ((nodes.map eraseMat).map
            fun n => (flatten_one_implicit_layer n).2) = true := by
          rw [hstr]
          exact h2
        by_cases h3 : (zipGroups (nodes.map fun n => (flatten_one_implicit_layer n).1)).any avalDiffGroup = true
        · have h3e : ((zipGroups ((nodes.map eraseMat).map
              fun n => (flatten_one_implicit_layer n).1)).any avalDiffGroup) = true := by
            rw [hch, zipGroups_map_erase, List.any_map, hcomp]
            exact h3
          rw [entryPaths_avalDiff h1 h2 h3, entryPaths_avalDiff h1e h2e h3e]
        · have h3f := bool_false_of_not_true h3
          have h3e : ((zipGroups ((nodes.map eraseMat).map
              fun n => (flatten_one_implicit_layer n).1)).any avalDiffGroup) = false := by
            rw [hch, zipGroups_map_erase, List.any_map, hcomp]
            exact h3f
          rw [entryPaths_push h1 h2 h3f, entryPaths_push h1e h2e h3e]
          rw [hch, minArity_map_erase]
          apply congrArg (List.foldr (· ∪ ·) ∅)
          apply List.map_congr_left
          intro j hj
          rw [List.map_map]
          rw [show ((getIdx j) ∘ List.map eraseMat) = (eraseMat ∘ getIdx j) from
            funext fun l => getIdx_map_erase j l]
          rw [← List.map_map]
          apply ih
          have := groupW_lt h1 h2 (List.mem_range.mp hj)
          omega
      · have h2f := bool_false_of_not_true h2
        have h2e : structsAllEq ((nodes.map eraseMat).map
            fun n => (flatten_one_implicit_layer n).2) = false := by
          rw [hstr]
          exact h2f
        rw [entryPaths_structDiff h1 h2f, entryPaths_structDiff h1e h2e]
    · have h1f := bool_false_of_not_true h1
      have h1e : (nodes.map eraseMat).any Node.isImplicit = false := by
        rw [hany]
        exact h1f
      rw [entryPaths_none h1f, entryPaths_none h1e]

theorem pathsOf_enumFrom_erase (pfx : Path) :
    ∀ (gs : List (List Node)) (i : Nat),
      pathsOf (enumGroupsFrom pfx i (gs.map (List.map eraseMat)))
        = pathsOf (enumGroupsFrom pfx i gs) := by
  intro gs
  induction gs with
  | nil => intro i; rfl
  | cons g rest ih =>
    intro i
    simp only [List.map_cons, enumGroupsFrom, pathsOf_cons]
    rw [entryPaths_erase (listW g) (pfx ++ [i]) g (Nat.le_refl _), ih (i + 1)]

theorem treeStructId_erase (t : Tree) : treeStructId (Tree.eraseMat t) = treeStructId t := by
  simp [treeStructId, Tree.eraseMat]

theorem leaves_avals_erase (ls : List Node) :
    (ls.map eraseMat).map Node.get_aval = ls.map Node.get_aval := by
  rw [List.map_map]
  apply List.map_congr_left
  intro n _
  simp only [Function.comp]
  exact eraseMat_get_aval n

theorem checkLeafAvals_erase (i : Nat) :
    ∀ (ls : List Node) (es : List Aval),
      checkLeafAvals i (ls.map eraseMat) es = checkLeafAvals i ls es := by
  intro ls
  induction ls with
  | nil => intro es; rfl
  | cons c rest ih =>
    intro es
    cases es with
    | nil => rfl
    | cons ea es2 =>
      simp only [List.map_cons, checkLeafAvals, eraseMat_get_aval, ih]

theorem checkRest_erase (avals : List Aval) (s0 : Nat × Nat) :
    ∀ (ts : List Tree) (i : Nat),
      checkRest avals s0 i (ts.map Tree.eraseMat) = checkRest avals s0 i ts := by
  intro ts
  induction ts with
  | nil => intro i; rfl
  | cons t rest ih =>
    intro i
    simp only [List.map_cons, checkRest, treeStructId_erase]
    by_cases hs : treeStructId t ≠ s0
    · rw [if_pos hs, if_pos hs]
    · rw [if_neg hs, if_neg hs]
      have : (Tree.eraseMat t).leaves = t.leaves.map eraseMat := rfl
      rw [this, checkLeafAvals_erase]
      cases checkLeafAvals i t.leaves avals with
      | error e => rfl
      | ok w => exact ih (i + 1)

theorem checkTrees_erase (trees : List Tree) :
    checkTrees (trees.map Tree.eraseMat) = checkTrees trees := by
  cases trees with
  | nil => rfl
  | cons t0 rest =>
    simp only [List.map_cons, checkTrees, treeStructId_erase]
    have : (Tree.eraseMat t0).leaves = t0.leaves.map eraseMat := rfl
    rw [this, leaves_avals_erase, checkRest_erase]

theorem initEntries_pathsOf_erase (trees : List Tree) :
    pathsOf (initEntries (trees.map Tree.eraseMat)) = pathsOf (initEntries trees) := by
  rw [initEntries, initEntries, enumGroups, enumGroups]
  have hmap : (trees.map Tree.eraseMat).map Tree.leaves
      = (trees.map Tree.leaves).map (List.map eraseMat) := by
    rw [List.map_map, List.map_map]
    apply List.map_congr_left
    intro t _
    rfl
  rw [hmap, zipGroups_map_erase]
  exact pathsOf_enumFrom_erase [] _ 0

/-- C10.  Reconciliation itself never materializes: the computed
materialization path set is unchanged when every node's _materialize chain
is erased and replaced by a dummy (so the computation cannot have consulted
it), and the pruning visitor leaves untouched every leaf whose path is not
a prefix of a recorded path — materialization happens only when a returned
transform is applied, and only at recorded paths. -/
theorem claim_C10 :
    (∀ trees : List Tree,
      get_common_prefix_paths (trees.map Tree.eraseMat) = get_common_prefix_paths trees)
    ∧ (∀ (s : Finset Path) (path : Path) (leaf : Node),
        (∀ q ∈ s, pathLE path q = false) →
        mapOneLeaf (fun _ n => materializeLoop n) (fun p _ => decide (p ∈ s)) path leaf
          = leaf) := by
  constructor
  · intro trees
    rw [get_common_prefix_paths, get_common_prefix_paths]
    by_cases hl : trees.length ≤ 1
    · rw [if_pos (by simpa using hl), if_pos hl]
    · rw [if_neg (by simpa using hl), if_neg hl, checkTrees_erase]
      cases checkTrees trees with
      | error e => rfl
      | ok w =>
        show Except.ok (runStack (initEntries (trees.map Tree.eraseMat)).reverse ∅)
          = Except.ok (runStack (initEntries trees).reverse ∅)
        rw [runStack_eq, runStack_eq, pathsOf_reverse, pathsOf_reverse,
          initEntries_pathsOf_erase]
  · intro s path leaf h
    exact mapOneLeaf_outside s (nodeW leaf) leaf path (Nat.le_refl _) h

/- Structure-mismatch fault lemmas (C6). -/

theorem checkRest_error_of_struct (avals : List Aval) (s0 : Nat × Nat) :
    ∀ (rest : List Tree) (i : Nat),
      (∃ t ∈ rest, treeStructId t ≠ s0) →
      ∃ e, checkRest avals s0 i rest = .error e := by
  intro rest
  induction rest with
  | nil =>
    intro i h
    obtain ⟨t, ht, _⟩ := h
    cases ht
  | cons t ts ih =>
    intro i h
    by_cases hs : treeStructId t ≠ s0
    · exact ⟨.structureMismatch, by rw [checkRest, if_pos hs]⟩
    · rw [checkRest, if_neg hs]
      cases hA : checkLeafAvals i t.leaves avals with
      | error e => exact ⟨e, rfl⟩
      | ok w =>
        obtain ⟨t2, ht2, hst2⟩ := h
        rcases List.mem_cons.mp ht2 with rfl | hmem
        · exact absurd hst2 hs
        · obtain ⟨e, he⟩ := ih (i + 1) ⟨t2, hmem, hst2⟩
          exact ⟨e, by rw [he]⟩

/-- C6 counterexample: the structure-mismatch fault is the constant
ValueError of line 142 and carries no tree index.  Two inputs whose first
disagreeing indices are 1 and 2 produce the very same fault value, so the
fault cannot name the offending index, contrary to the claim. -/
theorem claim_C6_counterexample :
    get_common_prefix_paths [⟨0, []⟩, ⟨1, []⟩] = .error .structureMismatch
    ∧ get_common_prefix_paths [⟨0, []⟩, ⟨0, []⟩, ⟨1, []⟩] = .error .structureMismatch
    ∧ firstStructureMismatchIndex [⟨0, []⟩, ⟨1, []⟩] = some 1
    ∧ firstStructureMismatchIndex [⟨0, []⟩, ⟨0, []⟩, ⟨1, []⟩] = some 2 := by
  refine ⟨?_, ?_, by decide, by decide⟩
  · rw [get_common_prefix_paths, if_neg (by decide)]
    rfl
  · rw [get_common_prefix_paths, if_neg (by decide)]
    rfl

/-- C6 amended.  Whenever some input tree's top-level virtual-as-leaf
structure differs from tree 0's, get_common_prefix_transforms fails with
some fault, raised at the first failing check; in the two-tree case where
only the structure can have been checked first, the fault is the
structure-mismatch fault — which carries no index. -/
theorem claim_C6 :
    (∀ (trees : List Tree) (t0 t : Tree), trees.head? = some t0 → t ∈ trees →
      treeStructId t ≠ treeStructId t0 →
      ∃ e, get_common_prefix_paths trees = .error e)
    ∧ (∀ t0 t1 : Tree, treeStructId t1 ≠ treeStructId t0 →
      get_common_prefix_paths [t0, t1] = .error .structureMismatch) := by
  constructor
  · intro trees t0 t hhead hmem hne
    cases trees with
    | nil => cases hhead
    | cons t0x rest =>
      have hEq : t0x = t0 := by simpa using hhead
      rw [← hEq] at hne
      have hmem2 : t ∈ rest := by
        rcases List.mem_cons.mp hmem with rfl | hm
        · exact absurd rfl hne
        · exact hm
      have hrest : rest ≠ [] := by
        rintro rfl
        cases hmem2
      have hlen : ¬ (t0x :: rest).length ≤ 1 := by
        cases rest with
        | nil => exact absurd rfl hrest
        | cons a b => simp
      rw [get_common_prefix_paths, if_neg hlen]
      obtain ⟨e, he⟩ := checkRest_error_of_struct
        (t0x.leaves.map Node.get_aval) (treeStructId t0x) rest 1 ⟨t, hmem2, hne⟩
      refine ⟨e, ?_⟩
      rw [checkTrees, he]
  · intro t0 t1 hne
    rw [get_common_prefix_paths, if_neg (by simp), checkTrees, checkRest, if_pos hne]

/-- C8 counterexample: flatten_one_implicit_layer applied to a concrete
leaf does not signal any fault — the source builds the prototype by
tree-mapping the leaf to 1 and returns the leaf itself with the trivial
leaf structure (the core loop at line 171 relies on this when a group
mixes concrete and implicit nodes). -/
theorem claim_C8_counterexample :
    flatten_one_implicit_layer (Node.concrete ⟨[], 0⟩)
      = ([Node.concrete ⟨[], 0⟩], Struct.leafStruct) := rfl

/-- C8 amended.  flatten_one_implicit_layer on a ConcreteLeaf returns the
singleton list holding that leaf together with the trivial leaf structure
descriptor, without fault: the claimed usage fault is not implemented. -/
theorem claim_C8 (a : Aval) :
    flatten_one_implicit_layer (Node.concrete a)
      = ([Node.concrete a], Struct.leafStruct) := rfl

/- Peripheral helper vmap_all_but_one (C9). -/

theorem vmapLayerPlan_neg {axis : Int} (hax : axis < 0) :
    ∀ (n vd od : Nat), vmapLayerPlan axis vd od n = List.replicate n (vd, od) := by
  intro n
  induction n with
  | zero => intro vd od; rfl
  | succ k ih =>
    intro vd od
    rw [vmapLayerPlan, if_neg (by omega), ih]
    rfl

/-- C9 counterexample: a negative axis, out of range per the claim, is not
rejected — the guard of line 18 only tests axis >= ndim, so axis = -1 with
a 2-dimensional first argument returns a mapping plan (vmapping every
axis) instead of raising. -/
theorem claim_C9_counterexample :
    vmap_all_but_one (-1) 0 2 = .ok [(1, 0), (1, 0)] := rfl

/-- C9 amended.  The function returned by vmap_all_but_one raises the
axis-out-of-bounds usage fault exactly when axis >= ndim; a negative axis
is accepted without fault and every axis is vmapped (the loop index never
equals a negative axis). -/
theorem claim_C9 (axis : Int) (out_ndim ndim : Nat) :
    ((ndim : Int) ≤ axis →
      vmap_all_but_one axis out_ndim ndim = .error (.axisOutOfBounds axis ndim))
    ∧ (axis < 0 →
      vmap_all_but_one axis out_ndim ndim = .ok (List.replicate ndim (1, out_ndim))) := by
  constructor
  · intro h
    rw [vmap_all_but_one, if_pos h]
  · intro h
    rw [vmap_all_but_one, if_neg (by omega), vmapLayerPlan_neg h]

/- Witnesses: each claim theorem with hypotheses, applied at a concrete
input with every hypothesis discharged by evaluation. -/

theorem claim_C1_witness :
    get_common_prefix_paths [⟨0, [wImp 0]⟩, ⟨0, [wImp 1]⟩] = .ok {[0]} :=
  claim_C1 ⟨0, [wImp 0]⟩ 0 [] (wImp 0) (wImp 1) ⟨0, [wImp 1]⟩ rfl rfl rfl rfl rfl
    (by decide)

theorem witness_two_paths :
    get_common_prefix_paths [⟨0, [wImp 0, wImp 2]⟩, ⟨0, [wImp 1, wImp 3]⟩]
      = .ok {[0], [1]} := by
  rw [get_common_prefix_paths, if_neg (by decide)]
  have hcheck : checkTrees [⟨0, [wImp 0, wImp 2]⟩, ⟨0, [wImp 1, wImp 3]⟩] = .ok () := rfl
  rw [hcheck]
  show Except.ok
      (runStack (initEntries [⟨0, [wImp 0, wImp 2]⟩, ⟨0, [wImp 1, wImp 3]⟩]).reverse ∅)
    = Except.ok {[0], [1]}
  rw [runStack_eq, pathsOf_reverse, Finset.empty_union]
  have hinit : initEntries [⟨0, [wImp 0, wImp 2]⟩, ⟨0, [wImp 1, wImp 3]⟩]
      = [([0], [wImp 0, wImp 1]), ([1], [wImp 2, wImp 3])] := rfl
  rw [hinit, pathsOf_cons, pathsOf_cons, pathsOf_nil]
  rw [entryPaths_structDiff (by decide) (by decide),
    entryPaths_structDiff (by decide) (by decide)]
  apply congrArg
  decide

theorem claim_C2_witness : pathLE [0] [1] = false :=
  claim_C2 [⟨0, [wImp 0, wImp 2]⟩, ⟨0, [wImp 1, wImp 3]⟩] {[0], [1]} witness_two_paths
    [0] (by decide) [1] (by decide) (by decide)

theorem claim_C4_witness :
    runStack [([], [wdiv 3, wdiv 4])] ∅ = runStack [] (insert [] ∅)
      ∧ entryPaths [] [wdiv 3, wdiv 4] = {[]} :=
  claim_C4 [] [wdiv 3, wdiv 4] [] ∅ (by decide) (by decide) (by decide)

theorem claim_C5_witness :
    ((_get_pruning_transform ⟨0, [Node.concrete wAval, wImp 7]⟩ {[1]}
        ⟨0, [Node.concrete wAval, wImp 7]⟩).getAt [0] = some (Node.concrete wAval))
    ∧ ((_get_pruning_transform ⟨0, [Node.concrete wAval, wImp 7]⟩ {[1]}
        ⟨0, [Node.concrete wAval, wImp 7]⟩).getAt [1] = some (materializeLoop (wImp 7))
      ∧ (materializeLoop (wImp 7)).isConcrete = true) :=
  ⟨(claim_C5 ⟨0, [Node.concrete wAval, wImp 7]⟩ {[1]} [0] (Node.concrete wAval)
      (by unfold prefixFree; decide) rfl).1 (by decide),
   (claim_C5 ⟨0, [Node.concrete wAval, wImp 7]⟩ {[1]} [1] (wImp 7)
      (by unfold prefixFree; decide) rfl).2 (by decide)⟩

theorem claim_C6_witness :
    (∃ e, get_common_prefix_paths [⟨0, []⟩, ⟨2, []⟩, ⟨1, []⟩] = .error e)
    ∧ get_common_prefix_paths [⟨0, []⟩, ⟨1, []⟩] = .error .structureMismatch :=
  ⟨claim_C6.1 [⟨0, []⟩, ⟨2, []⟩, ⟨1, []⟩] ⟨0, []⟩ ⟨2, []⟩ rfl
      (List.mem_cons_of_mem _ (List.mem_cons_self _ _)) (by decide),
   claim_C6.2 ⟨0, []⟩ ⟨1, []⟩ (by decide)⟩

theorem claim_C7_witness :
    implicit_depth ⟨0, [Node.concrete wAval]⟩ = 0
      ∧ get_common_prefix_paths [⟨0, [Node.concrete wAval]⟩, ⟨0, [Node.concrete wAval]⟩]
        = .ok ∅
      ∧ get_common_prefix_transforms
          [⟨0, [Node.concrete wAval]⟩, ⟨0, [Node.concrete wAval]⟩]
        = .ok [fun x => x, fun x => x] :=
  claim_C7 ⟨0, [Node.concrete wAval]⟩ (by decide)

theorem claim_C9_witness :
    vmap_all_but_one 5 0 3 = .error (.axisOutOfBounds 5 3)
    ∧ vmap_all_but_one (-2) 1 2 = .ok (List.replicate 2 (1, 1)) :=
  ⟨(claim_C9 5 0 3).1 (by decide), (claim_C9 (-2) 1 2).2 (by decide)⟩

theorem claim_C10_witness :
    get_common_prefix_paths ([⟨0, [wImp 0]⟩].map Tree.eraseMat)
      = get_common_prefix_paths [⟨0, [wImp 0]⟩]
    ∧ mapOneLeaf (fun _ n => materializeLoop n)
        (fun p _ => decide (p ∈ ({[1]} : Finset Path))) [0] (wImp 7) = wImp 7 :=
  ⟨claim_C10.1 [⟨0, [wImp 0]⟩], claim_C10.2 {[1]} [0] (wImp 7) (by decide)⟩

end Qax
